import Mathlib

/-!
Verification of the treemd markdown-structure pipeline.

Strings are modelled as `List Char` ("Str").  Byte offsets of the Rust code
become character offsets; the inputs under scrutiny are ASCII, where the two
coincide.  The external markdown tokenizer (pulldown-cmark) is modelled as an
injected function producing an event stream, following the design notes of the
specification, which describe the tokenizer as a replaceable collaborator
behind an event interface.
-/

namespace Treemd

/-- Strings are modelled as lists of characters. -/
abbrev Str := List Char

/-- Model of Rust `str::trim_start` (drop leading whitespace). -/
def trimStart (s : Str) : Str := s.dropWhile Char.isWhitespace

/-- Model of Rust `str::trim_end` (drop trailing whitespace). -/
def trimEnd (s : Str) : Str := (s.reverse.dropWhile Char.isWhitespace).reverse

/-- Model of Rust `str::trim`. -/
def trim (s : Str) : Str := trimEnd (trimStart s)

/-- `startsWithStr pre s` models Rust `s.starts_with(pre)`. -/
def startsWithStr (pre s : Str) : Bool := decide (s.take pre.length = pre)

/-- Model of Rust `str::split_once(sep)`: split at the first occurrence of the
character `sep`, returning the parts before and after it, or `none` when the
character does not occur. -/
def splitOnceChar (sep : Char) : Str → Option (Str × Str)
  | [] => none
  | c :: rest =>
    if c = sep then some ([], rest)
    else (splitOnceChar sep rest).map (fun pr => (c :: pr.1, pr.2))

/-- The four link-target dialects of `links.rs` (`LinkTarget`). -/
inductive LinkTarget where
  | anchor (fragment : Str)
  | relativeFile (path : Str) (anchorOpt : Option Str)
  | wikiLink (target : Str) (aliasOpt : Option Str)
  | external (url : Str)
deriving DecidableEq, Repr

/-- Model of `links.rs::parse_link_target`: classify a URL string, checking in
order: leading `#` gives an anchor; an `http://` or `https://` scheme gives an
external link; anything else is a relative file path, split at its first `#`
into path and optional anchor. -/
def parse_link_target : Str → LinkTarget
  | '#' :: rest => LinkTarget.anchor rest
  | url =>
    if startsWithStr "http://".toList url || startsWithStr "https://".toList url then
      LinkTarget.external url
    else
      match splitOnceChar '#' url with
      | some (p, a) => LinkTarget.relativeFile p (some a)
      | none => LinkTarget.relativeFile url none

/-- Per-character step of `content.rs::slugify`: keep alphanumerics, turn
whitespace and hyphens into a hyphen, drop everything else (the Rust code maps
the dropped characters to `NUL` and filters them out afterwards). -/
def slugMap (c : Char) : Option Char :=
  if c.isAlphanum then some c
  else if c.isWhitespace || c = '-' then some '-'
  else none

/-- The character stream of `slugify` before the split/join normalisation:
lowercase the text, then apply `slugMap` to every character. -/
def slugChars (s : Str) : Str := (s.map Char.toLower).filterMap slugMap

/-- Model of Rust `str::split(sep)` over a single separator character. -/
def splitChar (sep : Char) : Str → List Str
  | [] => [[]]
  | c :: rest =>
    match splitChar sep rest with
    | [] => [[]]
    | g :: gs => if c = sep then [] :: g :: gs else (c :: g) :: gs

/-- Model of Rust `Vec::join` over a single separator character. -/
def joinSep (sep : Char) : List Str → Str
  | [] => []
  | [g] => g
  | g :: gs => g ++ sep :: joinSep sep gs

/-- Model of `content.rs::slugify`: lowercase, map characters through
`slugMap`, split on hyphens, drop the empty groups, and re-join with single
hyphens. -/
def slugify (s : Str) : Str :=
  joinSep '-' ((splitChar '-' (slugChars s)).filter (fun g => !g.isEmpty))

/-- A heading as extracted by the heading extractor: a nesting level and the
(inline-formatting-stripped) heading text. -/
structure Heading where
  level : Nat
  text : Str
deriving DecidableEq, Repr

/-- `occursAt needle hay i` states that `needle` occurs in `hay` at
position `i`. -/
def occursAt (needle hay : Str) (i : Nat) : Prop :=
  (hay.drop i).take needle.length = needle

/-- Model of Rust `str::find(needle)`: position of the first occurrence of a
substring, or `none` when it does not occur. -/
def strFind (needle : Str) : Str → Option Nat
  | [] => if needle = [] then some 0 else none
  | c :: rest =>
    if (c :: rest).take needle.length = needle then some 0
    else (strFind needle rest).map (· + 1)

/-- Split a string into its lines at newline characters (model of the line
iteration of `builder.rs`; the carriage-return stripping of Rust `lines()` is
not modelled, no claim involves it). -/
def splitLines (s : Str) : List Str := s.splitOn '\n'

/-- Model of `builder.rs::get_heading_level` (the file-local variant, without
the level-six cap of `utils.rs`): trim leading whitespace, count the leading
run of `#` characters, and report its length when the run is non-empty and
followed directly by a whitespace character. -/
def get_heading_level (line : Str) : Option Nat :=
  go (trimStart line) 0
where
  /-- The character loop of `get_heading_level`: `level` counts the `#` run. -/
  go : Str → Nat → Option Nat
    | [], _ => none
    | ch :: rest, level =>
      if ch = '#' then go rest (level + 1)
      else if ch.isWhitespace then
        if level > 0 then some level else none
      else none

/-- A line that toggles the fenced-code state: its trimmed form starts with a
triple backtick (model of `line.trim_start().starts_with(triple-backtick)`). -/
def startsTicks (line : Str) : Bool := startsWithStr "```".toList (trimStart line)

/-- The line loop of `builder.rs::find_next_heading`: walk the lines carrying
the fence state and the byte position, answering the position of the first
boundary line, or `none` when no line qualifies. -/
def fnhGo (currentLevel : Nat) : List Str → Bool → Nat → Option Nat
  | [], _, _ => none
  | line :: rest, inCode, pos =>
    let inCode2 := if startsTicks line then !inCode else inCode
    if !inCode2 &&
        (match get_heading_level line with
         | some l => decide (l ≤ currentLevel)
         | none => false) then
      some pos
    else
      fnhGo currentLevel rest inCode2 (pos + line.length + 1)

/-- Model of `builder.rs::find_next_heading`: offset of the next line that is
a valid heading at level at most `currentLevel` and is not inside a fenced
code block; the length of the content when no such line exists. -/
def find_next_heading (content : Str) (currentLevel : Nat) : Nat :=
  (fnhGo currentLevel (splitLines content) false 0).getD content.length

/-- Model of Rust `str::lines().count()` (used for the 1-based line number of
a heading). -/
def countRustLines (s : Str) : Nat :=
  if s = [] then 0
  else (splitLines s).length - (if s.getLast? = some '\n' then 1 else 0)

/-- The marker string searched for by `extract_section_content`:
`level` `#` characters, a space, and the heading text. -/
def headingMarker (h : Heading) : Str :=
  List.replicate h.level '#' ++ ' ' :: h.text

/-- Model of `builder.rs::extract_section_content`: find the first occurrence
of the exact heading marker; on success cut the section between the end of the
heading line and the next boundary heading and trim it, reporting the content
offset and the 1-based line just after the heading line; on failure return the
empty section `(empty, 0, 0)` silently. -/
def extract_section_content (h : Heading) (full : Str) : Str × Nat × Nat :=
  match strFind (headingMarker h) full with
  | some offset =>
    let line := countRustLines (full.take offset) + 1
    let afterHeading := full.drop offset
    let contentStart := ((strFind ['\n'] afterHeading).map (· + 1)).getD 0
    let sectionContent := afterHeading.drop contentStart
    let endPos := find_next_heading sectionContent h.level
    (trim (sectionContent.take endPos), offset + contentStart, line + 1)
  | none => ([], 0, 0)

/-- Specification-side fence state when line `i` is examined, starting from
fence state `seed`: fold the triple-backtick toggle over the lines up to and
including line `i`. -/
def fenceStateFrom (seed : Bool) (lines : List Str) (i : Nat) : Bool :=
  (lines.take (i + 1)).foldl (fun b l => if startsTicks l then !b else b) seed

/-- Specification-side boundary test for line `i` given the starting fence
state `seed`: the line is not inside a fenced code region (with the toggle of
its own fence line already applied) and is a valid heading of level at most
`cur`. -/
def isBoundaryLineFrom (cur : Nat) (seed : Bool) (lines : List Str) (i : Nat) : Bool :=
  !fenceStateFrom seed lines i &&
    (match get_heading_level (lines.getD i []) with
     | some l => decide (l ≤ cur)
     | none => false)

/-- Specification-side boundary test for line `i` of a whole content (fence
state starts outside any fence). -/
def isBoundaryLine (cur : Nat) (lines : List Str) (i : Nat) : Bool :=
  isBoundaryLineFrom cur false lines i

/-- Offset of the start of line `j`: the lengths of the earlier lines plus one
newline byte each. -/
def lineOffset (lines : List Str) (j : Nat) : Nat :=
  ((lines.take j).map (fun l => l.length + 1)).sum

/-- Specification-side restatement of the section-end search: the offset of
the first line satisfying `isBoundaryLine`, or the content length when no
line qualifies. -/
def boundarySpec (content : Str) (cur : Nat) : Nat :=
  match (List.range (splitLines content).length).find? (isBoundaryLine cur (splitLines content)) with
  | some j => lineOffset (splitLines content) j
  | none => content.length

/-- The fenced/indented code-block kind reported by the tokenizer. -/
inductive CodeKind where
  | fenced (lang : Str)
  | indented
deriving DecidableEq, Repr

/-- Table column alignment, as carried by the table-start event. -/
inductive Alignment where
  | left
  | center
  | right
  | none
deriving DecidableEq, Repr

/-- The tokenizer events consumed by the content parser and the link
extractor.  The external markdown tokenizer is a replaceable collaborator:
per the design notes it is modelled as an injected producer of this event
stream, mirroring the pulldown-cmark constructors that the source matches
on (`other` stands for every event the source ignores in its wildcard
arm). -/
inductive Event where
  | startParagraph
  | endParagraph
  | startCodeBlock (kind : CodeKind)
  | endCodeBlock
  | startList (startNumber : Option Nat)
  | endList
  | startItem
  | endItem
  | taskListMarker (checked : Bool)
  | startBlockQuote
  | endBlockQuote
  | startTable (alignments : List Alignment)
  | endTable
  | startTableHead
  | endTableHead
  | startTableRow
  | endTableRow
  | startTableCell
  | endTableCell
  | startStrong
  | endStrong
  | startEmphasis
  | endEmphasis
  | startStrikethrough
  | endStrikethrough
  | inlineCode (t : Str)
  | startLink (destUrl : Str)
  | endLink
  | startImage (destUrl : Str) (title : Str)
  | endImage
  | text (t : Str)
  | softBreak
  | hardBreak
  | rule
  | startHeading (level : Nat)
  | endHeading
  | other
deriving DecidableEq, Repr

/-- A link found in markdown content (`links.rs::Link`). -/
structure Link where
  text : Str
  target : LinkTarget
  offset : Nat
deriving DecidableEq, Repr

/-- The mutable state of pass 1 of `extract_links`. -/
structure LinkScanState where
  in_link : Bool
  link_text : Str
  link_url : Str
  link_offset : Nat
deriving Repr

/-- Initial pass-1 state of `extract_links`. -/
def LinkScanState.init : LinkScanState := ⟨false, [], [], 0⟩

/-- One step of pass 1 of `extract_links`: on link start record the
destination and the event's start offset, accumulate text while inside a
link, and at link end classify the URL and emit one `Link`. -/
def linkPassStep (s : LinkScanState × List Link) (ev : Event × Nat) : LinkScanState × List Link :=
  match ev.1 with
  | Event.startLink dest =>
    ({ s.1 with in_link := true, link_url := dest, link_offset := ev.2 }, s.2)
  | Event.text t =>
    if s.1.in_link then ({ s.1 with link_text := s.1.link_text ++ t }, s.2) else s
  | Event.endLink =>
    if s.1.in_link then
      ({ s.1 with link_text := [], link_url := [], in_link := false },
       s.2 ++ [Link.mk s.1.link_text (parse_link_target s.1.link_url) s.1.link_offset])
    else s
  | _ => s

/-- Pass 1 of `extract_links`: fold `linkPassStep` over the offset-annotated
event stream of the fragment. -/
def passOne (events : List (Event × Nat)) : List Link :=
  (events.foldl linkPassStep (LinkScanState.init, [])).2

/-- Position of the first adjacent `]]` pair (the closing-bracket search of
the wikilink loop). -/
def findCloseIdx : Str → Option Nat
  | [] => Option.none
  | ']' :: ']' :: _ => some 0
  | _ :: rest => (findCloseIdx rest).map (· + 1)

/-- Build the `Link` for a well-formed wikilink run: split at the first pipe
into target and alias, trim both; display text is the alias when present,
else the target. -/
def mkWikiLink (content : Str) (offset : Nat) : Link :=
  match splitOnceChar '|' content with
  | some (t, a) =>
    Link.mk (trim a) (LinkTarget.wikiLink (trim t) (some (trim a))) offset
  | Option.none =>
    Link.mk (trim content) (LinkTarget.wikiLink (trim content) Option.none) offset

/-- The character scan of `links.rs::extract_wikilinks`, appending to the
accumulated link list.  On a `[[` opener the characters up to the matching
`]]` form the run; a run lacking its `]]` consumes the rest of the input
(the Rust iterator is exhausted) and contributes nothing, and a terminated
run is emitted only when non-empty.  Every step consumes at least one
character, so the structural counter (initialised to the input length by
the wrapper) never runs out. -/
def wikiScan : Nat → Nat → Str → List Link → List Link
  | 0, _, _, links => links
  | Nat.succ _, _, [], links => links
  | Nat.succ f, pos, '[' :: '[' :: rest, links =>
    (match findCloseIdx rest with
     | Option.none => links
     | some i =>
       let content := rest.take i
       let links2 := if content.isEmpty then links else links ++ [mkWikiLink content pos]
       wikiScan f (pos + i + 4) (rest.drop (i + 2)) links2)
  | Nat.succ f, pos, _ :: rest, links => wikiScan f (pos + 1) rest links

/-- Model of `links.rs::extract_wikilinks`. -/
def extract_wikilinks (pos : Nat) (s : Str) (links : List Link) : List Link :=
  wikiScan s.length pos s links

/-- Model of `links.rs::extract_links` with the tokenizer injected: pass 1
collects the standard markdown links from the offset-annotated event stream,
then pass 2 appends the wikilinks found by the character scan. -/
def extract_links (tok : Str → List (Event × Nat)) (content : Str) : List Link :=
  extract_wikilinks 0 content (passOne (tok content))

/-- Inline elements of the content model (`output.rs::InlineElement`, whose
shape the data-model section of the specification records: each variant holds
only its own literal text). -/
inductive InlineElement where
  | text (value : Str)
  | strong (value : Str)
  | emphasis (value : Str)
  | strikethrough (value : Str)
  | code (value : Str)
  | link (text : Str) (url : Str) (title : Option Str)
  | image (alt : Str) (src : Str) (title : Option Str)
deriving DecidableEq, Repr

mutual

/-- Typed content blocks (`output.rs::Block`, shape per the data-model
section of the specification and the constructors used by `content.rs`). -/
inductive Block where
  | heading (level : Nat) (content : Str) (inline : List InlineElement)
  | paragraph (content : Str) (inline : List InlineElement)
  | list (ordered : Bool) (items : List ListItem)
  | code (language : Option Str) (content : Str) (startLine : Nat) (endLine : Nat)
  | blockquote (content : Str) (blocks : List Block)
  | table (headers : List Str) (alignments : List Alignment) (rows : List (List Str))
  | image (alt : Str) (src : Str) (title : Option Str)
  | horizontalRule
  | details (summary : Str) (content : Str) (blocks : List Block)

/-- A list item (`output.rs::ListItem`): optional task-list state, leading
text with its inline elements, and the further nested blocks. -/
inductive ListItem where
  | mk (checked : Option Bool) (content : Str) (inline : List InlineElement)
       (blocks : List Block)

end

/-- Task-list state of a list item. -/
def ListItem.checked : ListItem → Option Bool
  | ListItem.mk c _ _ _ => c

/-- Leading text of a list item. -/
def ListItem.content : ListItem → Str
  | ListItem.mk _ c _ _ => c

/-- Inline elements of a list item's leading text. -/
def ListItem.inline : ListItem → List InlineElement
  | ListItem.mk _ _ i _ => i

/-- Nested blocks of a list item. -/
def ListItem.blocks : ListItem → List Block
  | ListItem.mk _ _ _ b => b

/-- The mutable state of the content parser (`content.rs::ParserState`). -/
structure ParserState where
  current_line : Nat
  paragraph_buffer : Str
  inline_buffer : List InlineElement
  list_items : List ListItem
  list_ordered : Bool
  list_depth : Nat
  item_depth : Nat
  task_list_marker : Option Bool
  saved_task_markers : List (Option Bool)
  item_blocks : List Block
  code_buffer : Str
  code_language : Option Str
  code_start_line : Nat
  blockquote_buffer : Str
  table_headers : List Str
  table_alignments : List Alignment
  table_rows : List (List Str)
  current_row : List Str
  heading_level : Option Nat
  heading_buffer : Str
  heading_inline : List InlineElement
  in_paragraph : Bool
  in_list : Bool
  in_code : Bool
  in_blockquote : Bool
  in_table : Bool
  in_heading : Bool
  in_strong : Bool
  in_emphasis : Bool
  in_strikethrough : Bool
  in_code_inline : Bool
  in_link : Bool
  link_url : Str
  link_text : Str
  image_in_link : Bool
  in_image : Bool
  saved_link_url : Str

/-- `ParserState::new`: the all-clear initial state at the given start
line. -/
def ParserState.new (startLine : Nat) : ParserState where
  current_line := startLine
  paragraph_buffer := []
  inline_buffer := []
  list_items := []
  list_ordered := false
  list_depth := 0
  item_depth := 0
  task_list_marker := Option.none
  saved_task_markers := []
  item_blocks := []
  code_buffer := []
  code_language := Option.none
  code_start_line := 0
  blockquote_buffer := []
  table_headers := []
  table_alignments := []
  table_rows := []
  current_row := []
  heading_level := Option.none
  heading_buffer := []
  heading_inline := []
  in_paragraph := false
  in_list := false
  in_code := false
  in_blockquote := false
  in_table := false
  in_heading := false
  in_strong := false
  in_emphasis := false
  in_strikethrough := false
  in_code_inline := false
  in_link := false
  link_url := []
  link_text := []
  image_in_link := false
  in_image := false
  saved_link_url := []

/-- `ParserState::flush_paragraph`. -/
def flushParagraph (sb : ParserState × List Block) : ParserState × List Block :=
  let s := sb.1
  if s.in_paragraph && !s.paragraph_buffer.isEmpty then
    ({ s with paragraph_buffer := [], inline_buffer := [], in_paragraph := false },
     sb.2 ++ [Block.paragraph s.paragraph_buffer s.inline_buffer])
  else sb

/-- `ParserState::flush_list`. -/
def flushList (sb : ParserState × List Block) : ParserState × List Block :=
  let s := sb.1
  if s.in_list && !s.list_items.isEmpty then
    ({ s with list_items := [], in_list := false },
     sb.2 ++ [Block.list s.list_ordered s.list_items])
  else sb

/-- `ParserState::flush_code`. -/
def flushCode (sb : ParserState × List Block) : ParserState × List Block :=
  let s := sb.1
  if s.in_code && !s.code_buffer.isEmpty then
    ({ s with code_buffer := [], code_language := Option.none, in_code := false },
     sb.2 ++ [Block.code s.code_language (trimEnd s.code_buffer) s.code_start_line s.current_line])
  else sb

/-- `ParserState::flush_blockquote`; the recursive re-parse of the quote body
is supplied as the `parse` argument. -/
def flushBlockquote (parse : Str → Nat → List Block) (sb : ParserState × List Block) :
    ParserState × List Block :=
  let s := sb.1
  if s.in_blockquote && !s.blockquote_buffer.isEmpty then
    ({ s with blockquote_buffer := [], in_blockquote := false },
     sb.2 ++ [Block.blockquote s.blockquote_buffer (parse s.blockquote_buffer s.current_line)])
  else sb

/-- `ParserState::flush_table`. -/
def flushTable (sb : ParserState × List Block) : ParserState × List Block :=
  let s := sb.1
  if s.in_table && !s.table_headers.isEmpty then
    ({ s with table_headers := [], table_alignments := [], table_rows := [],
              current_row := [], paragraph_buffer := [], inline_buffer := [],
              in_table := false },
     sb.2 ++ [Block.table s.table_headers s.table_alignments s.table_rows])
  else sb

/-- `ParserState::add_inline_text`: push one inline element chosen by the
active style flags (inline-code before strong before emphasis before
strikethrough before plain) and append the text to the paragraph buffer. -/
def addInlineText (s : ParserState) (t : Str) : ParserState :=
  if t.isEmpty then s
  else
    let element :=
      if s.in_code_inline then InlineElement.code t
      else if s.in_strong then InlineElement.strong t
      else if s.in_emphasis then InlineElement.emphasis t
      else if s.in_strikethrough then InlineElement.strikethrough t
      else InlineElement.text t
    { s with inline_buffer := s.inline_buffer ++ [element],
             paragraph_buffer := s.paragraph_buffer ++ t }

/-- The `[text](url)` form appended to the paragraph buffer at link end. -/
def fmtLink (t u : Str) : Str := '[' :: t ++ ']' :: '(' :: u ++ [')']

/-- `content.rs::process_event`: one step of the event reduction, threading
the parser state and the emitted block list; `parse` is the recursive
content parse used for block-quote bodies. -/
def process_event (parse : Str → Nat → List Block) (e : Event)
    (sb : ParserState × List Block) : ParserState × List Block :=
  match e with
  | Event.startParagraph =>
    ({ sb.1 with in_paragraph := true }, sb.2)
  | Event.endParagraph =>
    let s := sb.1
    if s.item_depth ≥ 1 && s.in_paragraph && !s.paragraph_buffer.isEmpty then
      ({ s with item_blocks := s.item_blocks ++ [Block.paragraph s.paragraph_buffer s.inline_buffer],
                paragraph_buffer := [], inline_buffer := [], in_paragraph := false }, sb.2)
    else flushParagraph sb
  | Event.startCodeBlock kind =>
    ({ sb.1 with in_code := true, code_start_line := sb.1.current_line,
                 code_language :=
                   match kind with
                   | CodeKind.fenced lang => if lang.isEmpty then Option.none else some lang
                   | CodeKind.indented => Option.none }, sb.2)
  | Event.endCodeBlock =>
    let s := sb.1
    if s.item_depth ≥ 1 && s.in_code && !s.code_buffer.isEmpty then
      ({ s with item_blocks := s.item_blocks ++
                  [Block.code s.code_language (trimEnd s.code_buffer) s.code_start_line s.current_line],
                code_buffer := [], code_language := Option.none, in_code := false }, sb.2)
    else flushCode sb
  | Event.startList startNumber =>
    let s := sb.1
    let s := { s with list_depth := s.list_depth + 1 }
    if s.list_depth = 1 then
      ({ s with in_list := true, list_ordered := startNumber.isSome }, sb.2)
    else (s, sb.2)
  | Event.endList =>
    let s := { sb.1 with list_depth := sb.1.list_depth - 1 }
    if s.list_depth = 0 then flushList (s, sb.2) else (s, sb.2)
  | Event.startItem =>
    let s := sb.1
    let s := { s with item_depth := s.item_depth + 1 }
    let s :=
      if s.item_depth > 1 then
        { s with saved_task_markers := s.saved_task_markers ++ [s.task_list_marker],
                 task_list_marker := Option.none }
      else s
    let s :=
      if s.item_depth = 1 then
        { s with paragraph_buffer := [], inline_buffer := [], item_blocks := [] }
      else s
    (s, sb.2)
  | Event.endItem =>
    let s := sb.1
    let s :=
      if s.item_depth > 1 then
        match s.saved_task_markers.getLast? with
        | some saved =>
          { s with task_list_marker := saved,
                   saved_task_markers := s.saved_task_markers.dropLast }
        | Option.none => s
      else s
    if s.item_depth = 1 then
      let cir : Str × List InlineElement × List Block :=
        if !s.paragraph_buffer.isEmpty then
          (s.paragraph_buffer, s.inline_buffer, s.item_blocks)
        else
          match s.item_blocks with
          | Block.paragraph c i :: restBlocks => (c, i, restBlocks)
          | _ => ([], [], s.item_blocks)
      ({ s with list_items := s.list_items ++
                  [ListItem.mk s.task_list_marker cir.1 cir.2.1 cir.2.2],
                paragraph_buffer := [], inline_buffer := [], item_blocks := [],
                task_list_marker := Option.none,
                item_depth := s.item_depth - 1 }, sb.2)
    else ({ s with item_depth := s.item_depth - 1 }, sb.2)
  | Event.taskListMarker checked =>
    ({ sb.1 with task_list_marker := some checked }, sb.2)
  | Event.startBlockQuote =>
    ({ sb.1 with in_blockquote := true }, sb.2)
  | Event.endBlockQuote =>
    flushBlockquote parse sb
  | Event.startTable alignments =>
    ({ sb.1 with in_table := true, table_alignments := alignments }, sb.2)
  | Event.endTable =>
    flushTable sb
  | Event.startTableHead => sb
  | Event.endTableHead =>
    ({ sb.1 with table_headers := sb.1.current_row, current_row := [] }, sb.2)
  | Event.startTableRow => sb
  | Event.endTableRow =>
    ({ sb.1 with table_rows := sb.1.table_rows ++ [sb.1.current_row], current_row := [] }, sb.2)
  | Event.startTableCell =>
    ({ sb.1 with paragraph_buffer := [], inline_buffer := [] }, sb.2)
  | Event.endTableCell =>
    ({ sb.1 with current_row := sb.1.current_row ++ [sb.1.paragraph_buffer],
                 paragraph_buffer := [], inline_buffer := [] }, sb.2)
  | Event.startStrong => ({ sb.1 with in_strong := true }, sb.2)
  | Event.endStrong => ({ sb.1 with in_strong := false }, sb.2)
  | Event.startEmphasis => ({ sb.1 with in_emphasis := true }, sb.2)
  | Event.endEmphasis => ({ sb.1 with in_emphasis := false }, sb.2)
  | Event.startStrikethrough => ({ sb.1 with in_strikethrough := true }, sb.2)
  | Event.endStrikethrough => ({ sb.1 with in_strikethrough := false }, sb.2)
  | Event.inlineCode t =>
    let s := { sb.1 with in_code_inline := true }
    let s := addInlineText s t
    ({ s with in_code_inline := false }, sb.2)
  | Event.startLink destUrl =>
    ({ sb.1 with in_link := true, link_url := destUrl, link_text := [] }, sb.2)
  | Event.endLink =>
    let s := { sb.1 with in_link := false }
    let s :=
      if s.image_in_link then
        { s with inline_buffer := s.inline_buffer ++
                   [InlineElement.link s.link_text s.saved_link_url Option.none],
                 paragraph_buffer := s.paragraph_buffer ++ fmtLink s.link_text s.saved_link_url }
      else
        { s with inline_buffer := s.inline_buffer ++
                   [InlineElement.link s.link_text s.link_url Option.none],
                 paragraph_buffer := s.paragraph_buffer ++ fmtLink s.link_text s.link_url }
    ({ s with link_text := [], link_url := [], saved_link_url := [],
              image_in_link := false }, sb.2)
  | Event.startImage destUrl title =>
    let s := sb.1
    let s :=
      if s.in_link then { s with image_in_link := true, saved_link_url := s.link_url }
      else s
    ({ s with in_image := true, link_url := destUrl, link_text := [],
              paragraph_buffer := title }, sb.2)
  | Event.endImage =>
    let s := { sb.1 with in_image := false }
    if !s.image_in_link then
      if s.in_paragraph then
        let el := InlineElement.image s.link_text s.link_url
          (if s.paragraph_buffer.isEmpty then Option.none else some s.paragraph_buffer)
        let s := { s with inline_buffer := s.inline_buffer ++ [el],
                          paragraph_buffer := s.paragraph_buffer ++ '[' :: s.link_text ++ [']'] }
        ({ s with link_text := [], link_url := [], paragraph_buffer := [] }, sb.2)
      else
        let sb2 := flushParagraph (s, sb.2)
        let s2 := sb2.1
        let blocks := sb2.2 ++ [Block.image s2.link_text s2.link_url
          (if s2.paragraph_buffer.isEmpty then Option.none else some s2.paragraph_buffer)]
        ({ s2 with link_text := [], link_url := [], paragraph_buffer := [] }, blocks)
    else (s, sb.2)
  | Event.text t =>
    let s := sb.1
    if s.in_code then ({ s with code_buffer := s.code_buffer ++ t }, sb.2)
    else if s.in_blockquote then ({ s with blockquote_buffer := s.blockquote_buffer ++ t }, sb.2)
    else if s.in_heading then
      let element :=
        if s.in_code_inline then InlineElement.code t
        else if s.in_strong then InlineElement.strong t
        else if s.in_emphasis then InlineElement.emphasis t
        else InlineElement.text t
      ({ s with heading_buffer := s.heading_buffer ++ t,
                heading_inline := s.heading_inline ++ [element] }, sb.2)
    else if s.in_link || s.in_image then
      ({ s with link_text := s.link_text ++ t }, sb.2)
    else
      let s :=
        if s.in_list && s.item_depth > 1 then
          let s :=
            if !s.paragraph_buffer.isEmpty && !(s.paragraph_buffer.getLast? = some '\n') then
              { s with paragraph_buffer := s.paragraph_buffer ++ ['\n'] }
            else s
          let s := { s with paragraph_buffer :=
                       s.paragraph_buffer ++ List.replicate (2 * (s.item_depth - 1)) ' ' }
          match s.task_list_marker with
          | some checked =>
            { s with paragraph_buffer :=
                       s.paragraph_buffer ++ (if checked then "[x] ".toList else "[ ] ".toList),
                     task_list_marker := Option.none }
          | Option.none => s
        else s
      (addInlineText s t, sb.2)
  | Event.softBreak =>
    let s := sb.1
    if s.in_paragraph then
      ({ s with paragraph_buffer := s.paragraph_buffer ++ [' '],
                inline_buffer := s.inline_buffer ++ [InlineElement.text [' ']] }, sb.2)
    else sb
  | Event.hardBreak =>
    let s := sb.1
    if s.in_paragraph then
      ({ s with paragraph_buffer := s.paragraph_buffer ++ ['\n'],
                inline_buffer := s.inline_buffer ++ [InlineElement.text ['\n']] }, sb.2)
    else sb
  | Event.rule =>
    let sb2 := flushParagraph sb
    (sb2.1, sb2.2 ++ [Block.horizontalRule])
  | Event.startHeading level =>
    let sb2 := flushParagraph sb
    ({ sb2.1 with in_heading := true, heading_level := some level,
                  heading_buffer := [], heading_inline := [] }, sb2.2)
  | Event.endHeading =>
    let s := sb.1
    let blocks :=
      if s.in_heading && !s.heading_buffer.isEmpty then
        match s.heading_level with
        | some level => sb.2 ++ [Block.heading level s.heading_buffer s.heading_inline]
        | Option.none => sb.2
      else sb.2
    ({ s with in_heading := false, heading_level := Option.none,
              heading_buffer := [], heading_inline := [] }, blocks)
  | Event.other => sb

/-- `ParserState::finalize`: flush every pending block kind, in the source's
order. -/
def finalizeState (parse : Str → Nat → List Block) (sb : ParserState × List Block) :
    ParserState × List Block :=
  flushTable (flushBlockquote parse (flushCode (flushList (flushParagraph sb))))

/-- The placeholder paragraph text substituted for details region `idx`. -/
def detailsPlaceholder (idx : Nat) : Str :=
  '\n' :: "[DETAILS_BLOCK_".toList ++ (Nat.repr idx).toList ++ "]\n".toList

/-- The summary extraction of `extract_details_blocks`: body of the first
`summary` element of the region, trimmed, or empty when any of the three
searches fails. -/
def extractSummary (detailsContent : Str) : Str :=
  match strFind "<summary".toList detailsContent with
  | some sp =>
    match strFind ['>'] (detailsContent.drop sp) with
    | some ste =>
      let scs := sp + ste + 1
      match strFind "</summary>".toList (detailsContent.drop scs) with
      | some sep => trim ((detailsContent.drop scs).take sep)
      | Option.none => []
    | Option.none => []
  | Option.none => []

/-- The character loop of `content.rs::extract_details_blocks`.  `parse` is
the recursive content parse applied to details bodies, `idx` the number of
regions already replaced.  Every step consumes at least one character, so the
structural counter (initialised to the input length by the wrapper) never
runs out. -/
def edGo (parse : Str → Nat → List Block) : Nat → Str → Nat → Str × List Block
  | 0, _, _ => ([], [])
  | Nat.succ n, s, idx =>
    let copyOne : Str × List Block :=
      match s with
      | [] => ([], [])
      | c :: rest =>
        let r := edGo parse n rest idx
        (c :: r.1, r.2)
    if startsWithStr "<details".toList s then
      match strFind ['>'] s with
      | some tagEnd =>
        let afterGt := s.drop (tagEnd + 1)
        match strFind "</details>".toList afterGt with
        | some endPos =>
          let detailsContent := afterGt.take endPos
          let summary := extractSummary detailsContent
          let contentStart :=
            match strFind "</summary>".toList detailsContent with
            | some sp => detailsContent.drop (sp + "</summary>".toList.length)
            | Option.none => detailsContent
          let contentTrimmed := trim contentStart
          let nested := if !contentTrimmed.isEmpty then parse contentTrimmed 0 else []
          let afterClose := afterGt.drop (endPos + "</details>".toList.length)
          let r := edGo parse n afterClose (idx + 1)
          (detailsPlaceholder idx ++ r.1,
           Block.details summary contentTrimmed nested :: r.2)
        | Option.none => copyOne
      | Option.none => copyOne
    else copyOne

/-- Model of `content.rs::extract_details_blocks`: replace every recoverable
`details` region of the fragment by a placeholder paragraph and collect the
corresponding `Details` blocks, in order. -/
def extract_details_blocks (parse : Str → Nat → List Block) (markdown : Str) :
    Str × List Block :=
  edGo parse markdown.length markdown 0

/-- Model of Rust `usize::from_str` restricted to plain digit runs (the only
form the placeholder substitution produces). -/
def parseNatDigits (s : Str) : Option Nat :=
  if !s.isEmpty && s.all Char.isDigit then
    some (s.foldl (fun a c => a * 10 + (c.toNat - 48)) 0)
  else Option.none

/-- The placeholder substitution at the end of `parse_content`: a paragraph
whose trimmed text is exactly one placeholder becomes the corresponding
`Details` block; everything else is kept. -/
def substOne (details : List Block) (b : Block) : Block :=
  match b with
  | Block.paragraph content _ =>
    let t := trim content
    if startsWithStr "[DETAILS_BLOCK_".toList t && t.getLast? = some ']' then
      match parseNatDigits ((t.drop "[DETAILS_BLOCK_".toList.length).dropLast) with
      | some index =>
        match details.get? index with
        | some d => d
        | Option.none => b
      | Option.none => b
    else b
  | _ => b

/-- Model of `content.rs::parse_content` with the tokenizer injected:
extract the details regions, tokenize the rewritten fragment, fold
`process_event` over the events, flush, and substitute the placeholders.
The structural counter bounds the recursion into block-quote and details
bodies (plain bounded call-stack recursion in the source); callers pick it
large enough for the nesting at hand. -/
def parse_content (tok : Str → List Event) : Nat → Str → Nat → List Block
  | 0, _, _ => []
  | Nat.succ fuel, markdown, startLine =>
    let parse := fun (md : Str) (line : Nat) => parse_content tok fuel md line
    let pd := extract_details_blocks parse markdown
    let r := (tok pd.1).foldl (fun sb e => process_event parse e sb)
      (ParserState.new startLine, [])
    (finalizeState parse r).2.map (substOne pd.2)

/-- A node of the heading forest (`document.rs::HeadingNode`). -/
inductive HeadingNode where
  | mk (heading : Heading) (children : List HeadingNode)

/-- The heading of a node. -/
def HeadingNode.heading : HeadingNode → Heading
  | HeadingNode.mk h _ => h

/-- The children of a node. -/
def HeadingNode.children : HeadingNode → List HeadingNode
  | HeadingNode.mk _ cs => cs

/-- Modelled from the spec: `Document::build_tree` lives in `document.rs`,
which is not among the provided sources.  The system-overview section of the
specification characterises the builder: a heading's children are the
contiguous run of strictly deeper headings that follow it, up to (excluding)
the next heading at its own level or shallower — the run characterisation of
the stack algorithm of the component-design section. -/
def build_tree : List Heading → List HeadingNode
  | [] => []
  | h :: rest =>
    HeadingNode.mk h (build_tree (rest.takeWhile (fun x => decide (h.level < x.level)))) ::
      build_tree (rest.dropWhile (fun x => decide (h.level < x.level)))
termination_by l => l.length
decreasing_by
  · simp only [List.length_cons]
    exact Nat.lt_succ_of_le (List.takeWhile_sublist _).length_le
  · simp only [List.length_cons]
    exact Nat.lt_succ_of_le (List.dropWhile_sublist _).length_le

mutual

/-- Pre-order flattening of one node: its heading, then its subtree. -/
def HeadingNode.flat : HeadingNode → List Heading
  | HeadingNode.mk h cs => h :: flatForest cs

/-- Pre-order flattening of a forest. -/
def flatForest : List HeadingNode → List Heading
  | [] => []
  | n :: ns => n.flat ++ flatForest ns

end

mutual

/-- All (parent heading, child heading) pairs of one node's subtree. -/
def childPairs : HeadingNode → List (Heading × Heading)
  | HeadingNode.mk h cs => cs.map (fun c => (h, c.heading)) ++ childPairsF cs

/-- All (parent heading, child heading) pairs of a forest. -/
def childPairsF : List HeadingNode → List (Heading × Heading)
  | [] => []
  | n :: ns => childPairs n ++ childPairsF ns

end

mutual

/-- All (ancestor heading, strict-descendant heading) pairs of one node's
subtree. -/
def ancPairs : HeadingNode → List (Heading × Heading)
  | HeadingNode.mk h cs => (flatForest cs).map (fun d => (h, d)) ++ ancPairsF cs

/-- All (ancestor heading, strict-descendant heading) pairs of a forest. -/
def ancPairsF : List HeadingNode → List (Heading × Heading)
  | [] => []
  | n :: ns => ancPairs n ++ ancPairsF ns

end

/-- A heading carrying its position in the original flat sequence, used to
state the nearest-preceding-shallower-heading attachment rule. -/
structure IHeading where
  level : Nat
  idx : Nat
deriving DecidableEq, Repr

/-- Heading-forest node over position-carrying headings. -/
inductive INode where
  | mk (head : IHeading) (children : List INode)

/-- The heading of an indexed node. -/
def INode.head : INode → IHeading
  | INode.mk h _ => h

/-- The children of an indexed node. -/
def INode.children : INode → List INode
  | INode.mk _ cs => cs

/-- The tree builder over position-carrying headings; same algorithm as
`build_tree`, level for level. -/
def build_itree : List IHeading → List INode
  | [] => []
  | h :: rest =>
    INode.mk h (build_itree (rest.takeWhile (fun x => decide (h.level < x.level)))) ::
      build_itree (rest.dropWhile (fun x => decide (h.level < x.level)))
termination_by l => l.length
decreasing_by
  · simp only [List.length_cons]
    exact Nat.lt_succ_of_le (List.takeWhile_sublist _).length_le
  · simp only [List.length_cons]
    exact Nat.lt_succ_of_le (List.dropWhile_sublist _).length_le

/-- Annotate a flat heading sequence with its positions, starting at `b`. -/
def idxFrom (b : Nat) : List Heading → List IHeading
  | [] => []
  | h :: t => IHeading.mk h.level b :: idxFrom (b + 1) t

/-- A list of indexed headings whose positions are consecutive from `b`. -/
def Contig : Nat → List IHeading → Prop
  | _, [] => True
  | b, x :: xs => x.idx = b ∧ Contig (b + 1) xs

mutual

/-- All (parent, child) pairs of one indexed node's subtree. -/
def ichildPairs : INode → List (IHeading × IHeading)
  | INode.mk h cs => cs.map (fun c => (h, c.head)) ++ ichildPairsF cs

/-- All (parent, child) pairs of an indexed forest. -/
def ichildPairsF : List INode → List (IHeading × IHeading)
  | [] => []
  | n :: ns => ichildPairs n ++ ichildPairsF ns

end

/-- Trees of bare levels, used to compare the shapes the two builders
produce. -/
inductive LevelTree where
  | mk (level : Nat) (children : List LevelTree)

mutual

/-- Level shape of a heading-forest node. -/
def shapeH : HeadingNode → LevelTree
  | HeadingNode.mk h cs => LevelTree.mk h.level (shapeForestH cs)

/-- Level shape of a heading forest. -/
def shapeForestH : List HeadingNode → List LevelTree
  | [] => []
  | n :: ns => shapeH n :: shapeForestH ns

end

mutual

/-- Level shape of an indexed node. -/
def shapeI : INode → LevelTree
  | INode.mk h cs => LevelTree.mk h.level (shapeForestI cs)

/-- Level shape of an indexed forest. -/
def shapeForestI : List INode → List LevelTree
  | [] => []
  | n :: ns => shapeI n :: shapeForestI ns

end

/-! ### Concrete fragments and their modelled tokenizer event streams -/

/-- The offset-annotated event stream the tokenizer produces for the fragment
`[[]]`: bracket characters are literal text, no link events. -/
def c10Events : List (Event × Nat) :=
  [(Event.startParagraph, 0), (Event.text "[".toList, 0), (Event.text "[".toList, 1),
   (Event.text "]".toList, 2), (Event.text "]".toList, 3), (Event.endParagraph, 0)]

/-- The mixed-dialect link fragment of the specification's testable
properties. -/
def c5Input : Str := "See [Installation](#installation) first. Then [[contributing]].".toList

/-- The offset-annotated event stream the tokenizer produces for `c5Input`:
one standard link (destination `#installation`, byte range starting at 4)
with its text, surrounding literal text runs, and the wikilink characters as
literal text. -/
def c5Events : List (Event × Nat) :=
  [(Event.startParagraph, 0),
   (Event.text "See ".toList, 0),
   (Event.startLink "#installation".toList, 4),
   (Event.text "Installation".toList, 5),
   (Event.endLink, 4),
   (Event.text " first. Then ".toList, 33),
   (Event.text "[".toList, 46),
   (Event.text "[".toList, 47),
   (Event.text "contributing".toList, 48),
   (Event.text "]".toList, 60),
   (Event.text "]".toList, 61),
   (Event.text ".".toList, 62),
   (Event.endParagraph, 0)]

/-- The ordered-list-with-fenced-code fragment of issue 8 (the repository's
own regression test input). -/
def c4Input : Str := "1. Test1:\n   ```\n   test1\n   ```\n\n2. Test2:\n   test2".toList

/-- The event stream the tokenizer produces for `c4Input`: a loose ordered
list (the blank line separates the items) whose first item holds a paragraph
and an unlabelled fenced code block, and whose second item holds a paragraph
with a soft break. -/
def c4Events : List Event :=
  [Event.startList (some 1),
   Event.startItem,
   Event.startParagraph,
   Event.text "Test1:".toList,
   Event.endParagraph,
   Event.startCodeBlock (CodeKind.fenced []),
   Event.text "test1\n".toList,
   Event.endCodeBlock,
   Event.endItem,
   Event.startItem,
   Event.startParagraph,
   Event.text "Test2:".toList,
   Event.softBreak,
   Event.text "test2".toList,
   Event.endParagraph,
   Event.endItem,
   Event.endList]

/-! ### Character-level facts used by the slug proofs -/

theorem toNat_toLower (c : Char) :
    (Char.toLower c).toNat = if 65 ≤ c.toNat ∧ c.toNat ≤ 90 then c.toNat + 32 else c.toNat := by
  unfold Char.toLower
  by_cases h : c.toNat ≥ 65 ∧ c.toNat ≤ 90
  · rw [if_pos h, if_pos ⟨h.1, h.2⟩]
    have hv : (c.toNat + 32).isValidChar := by
      left
      omega
    rw [Char.ofNat, dif_pos hv]
    show UInt32.toNat _ = _
    simp only [Char.ofNatAux, UInt32.toNat]
    simp [BitVec.toNat_ofNatLt]
  · rw [if_neg h, if_neg (fun hc => h ⟨hc.1, hc.2⟩)]

theorem toLower_toLower (c : Char) : Char.toLower (Char.toLower c) = Char.toLower c := by
  have h1 := toNat_toLower (Char.toLower c)
  have h2 := toNat_toLower c
  have key : (Char.toLower (Char.toLower c)).toNat = (Char.toLower c).toNat := by
    rw [h1, h2]
    by_cases h : 65 ≤ c.toNat ∧ c.toNat ≤ 90
    · rw [if_pos h, if_neg (by omega)]
    · rw [if_neg h, if_neg h]
  calc Char.toLower (Char.toLower c)
      = Char.ofNat (Char.toLower (Char.toLower c)).toNat := (Char.ofNat_toNat _).symm
    _ = Char.ofNat (Char.toLower c).toNat := by rw [key]
    _ = Char.toLower c := Char.ofNat_toNat _

/-! ### Split/join facts used by the slug proofs -/

theorem splitChar_ne_nil (sep : Char) (l : Str) : splitChar sep l ≠ [] := by
  induction l with
  | nil => simp [splitChar]
  | cons c rest ih =>
    simp only [splitChar]
    cases h : splitChar sep rest with
    | nil => simp
    | cons g gs =>
      by_cases hc : c = sep <;> simp [hc]

theorem mem_splitChar_not_sep (sep : Char) (l : Str) :
    ∀ g ∈ splitChar sep l, sep ∉ g := by
  induction l with
  | nil =>
    intro g hg
    simp [splitChar] at hg
    simp [hg]
  | cons c rest ih =>
    intro g hg
    simp only [splitChar] at hg
    cases h : splitChar sep rest with
    | nil => exact absurd h (splitChar_ne_nil sep rest)
    | cons g0 gs =>
      rw [h] at hg
      by_cases hc : c = sep
      · simp only [if_pos hc] at hg
        rcases List.mem_cons.mp hg with h1 | h1
        · simp [h1]
        · exact ih g (h ▸ h1)
      · simp only [if_neg hc] at hg
        rcases List.mem_cons.mp hg with h1 | h1
        · subst h1
          intro hmem
          rcases List.mem_cons.mp hmem with h2 | h2
          · exact hc h2.symm
          · exact ih g0 (h ▸ List.mem_cons_self g0 gs) h2
        · exact ih g (h ▸ List.mem_cons.mpr (Or.inr h1))

theorem mem_of_mem_splitChar (sep : Char) (l : Str) :
    ∀ g ∈ splitChar sep l, ∀ c ∈ g, c ∈ l := by
  induction l with
  | nil =>
    intro g hg c hc
    simp [splitChar] at hg
    subst hg
    simp at hc
  | cons d rest ih =>
    intro g hg c hc
    simp only [splitChar] at hg
    cases h : splitChar sep rest with
    | nil => exact absurd h (splitChar_ne_nil sep rest)
    | cons g0 gs =>
      rw [h] at hg
      by_cases hd : d = sep
      · simp only [if_pos hd] at hg
        rcases List.mem_cons.mp hg with h1 | h1
        · subst h1
          simp at hc
        · exact List.mem_cons.mpr (Or.inr (ih g (h ▸ h1) c hc))
      · simp only [if_neg hd] at hg
        rcases List.mem_cons.mp hg with h1 | h1
        · subst h1
          rcases List.mem_cons.mp hc with h2 | h2
          · exact List.mem_cons.mpr (Or.inl h2)
          · exact List.mem_cons.mpr (Or.inr (ih g0 (h ▸ List.mem_cons_self g0 gs) c h2))
        · exact List.mem_cons.mpr (Or.inr (ih g (h ▸ List.mem_cons.mpr (Or.inr h1)) c hc))

theorem mem_joinSep (sep : Char) (gs : List Str) :
    ∀ c ∈ joinSep sep gs, c = sep ∨ ∃ g ∈ gs, c ∈ g := by
  induction gs with
  | nil =>
    intro c hc
    simp [joinSep] at hc
  | cons g rest ih =>
    intro c hc
    cases rest with
    | nil =>
      simp only [joinSep] at hc
      exact Or.inr ⟨g, List.mem_cons_self g [], hc⟩
    | cons g2 rest2 =>
      simp only [joinSep] at hc
      rcases List.mem_append.mp hc with h1 | h1
      · exact Or.inr ⟨g, List.mem_cons_self _ _, h1⟩
      · rcases List.mem_cons.mp h1 with h2 | h2
        · exact Or.inl h2
        · rcases ih c h2 with h3 | ⟨g3, hg3, hc3⟩
          · exact Or.inl h3
          · exact Or.inr ⟨g3, List.mem_cons.mpr (Or.inr hg3), hc3⟩

theorem splitChar_no_sep (sep : Char) (g : Str) (hg : sep ∉ g) :
    splitChar sep g = [g] := by
  induction g with
  | nil => simp [splitChar]
  | cons c rest ih =>
    have hc : c ≠ sep := fun h => hg (h ▸ List.mem_cons_self c rest)
    have hrest : sep ∉ rest := fun h => hg (List.mem_cons.mpr (Or.inr h))
    simp only [splitChar, ih hrest]
    simp [fun h => hc h]

theorem splitChar_append_sep (sep : Char) (g t : Str) (hg : sep ∉ g) :
    splitChar sep (g ++ sep :: t) = g :: splitChar sep t := by
  induction g with
  | nil =>
    simp only [List.nil_append, splitChar]
    cases h : splitChar sep t with
    | nil => exact absurd h (splitChar_ne_nil sep t)
    | cons g0 gs => simp
  | cons c rest ih =>
    have hc : c ≠ sep := fun h => hg (h ▸ List.mem_cons_self c rest)
    have hrest : sep ∉ rest := fun h => hg (List.mem_cons.mpr (Or.inr h))
    simp only [List.cons_append, splitChar, List.append_eq]
    rw [ih hrest]
    simp [fun h => hc h]

theorem splitChar_joinSep (sep : Char) (gs : List Str) (hne : gs ≠ [])
    (hsep : ∀ g ∈ gs, sep ∉ g) : splitChar sep (joinSep sep gs) = gs := by
  induction gs with
  | nil => exact absurd rfl hne
  | cons g rest ih =>
    cases rest with
    | nil =>
      simp only [joinSep]
      exact splitChar_no_sep sep g (hsep g (List.mem_cons_self g []))
    | cons g2 rest2 =>
      simp only [joinSep]
      rw [splitChar_append_sep sep g _ (hsep g (List.mem_cons_self _ _))]
      have : splitChar sep (joinSep sep (g2 :: rest2)) = g2 :: rest2 :=
        ih (by simp) (fun x hx => hsep x (List.mem_cons.mpr (Or.inr hx)))
      simp only [joinSep] at this
      rw [this]

theorem filterMap_id_of_forall (f : Char → Option Char) (l : Str)
    (h : ∀ c ∈ l, f c = some c) : l.filterMap f = l := by
  induction l with
  | nil => simp
  | cons c rest ih =>
    rw [List.filterMap_cons, h c (List.mem_cons_self c rest),
      ih (fun x hx => h x (List.mem_cons.mpr (Or.inr hx)))]

theorem mem_slugChars (s : Str) :
    ∀ c ∈ slugChars s, c = '-' ∨ (c.isAlphanum = true ∧ Char.toLower c = c) := by
  intro c hc
  rcases List.mem_filterMap.mp hc with ⟨a, ha, hfa⟩
  rcases List.mem_map.mp ha with ⟨b, _, hb⟩
  by_cases halnum : a.isAlphanum
  · right
    simp only [slugMap, if_pos halnum, Option.some.injEq] at hfa
    subst hfa
    exact ⟨halnum, by rw [← hb, toLower_toLower]⟩
  · left
    simp only [slugMap, if_neg halnum] at hfa
    simp at hfa
    exact hfa.2.symm

theorem slugChars_slugify (s : Str) : slugChars (slugify s) = slugify s := by
  have hmem : ∀ c ∈ slugify s, Char.toLower c = c ∧ slugMap c = some c := by
    intro c hc
    unfold slugify at hc
    rcases mem_joinSep '-' _ c hc with h1 | ⟨g, hg, hcg⟩
    · subst h1
      refine ⟨by decide, by decide⟩
    · have hgs := List.mem_filter.mp hg
      have hcl : c ∈ slugChars s := mem_of_mem_splitChar '-' (slugChars s) g hgs.1 c hcg
      have hnsep : c ≠ '-' := by
        intro h
        exact mem_splitChar_not_sep '-' (slugChars s) g hgs.1 (h ▸ hcg)
      rcases mem_slugChars s c hcl with h1 | ⟨h1, h2⟩
      · exact absurd h1 hnsep
      · exact ⟨h2, by simp [slugMap, h1]⟩
  unfold slugChars
  rw [List.map_congr_left (fun c hc => (hmem c hc).1), List.map_id']
  exact filterMap_id_of_forall slugMap _ (fun c hc => (hmem c hc).2)

/-- C8: `slugify` is idempotent — applying it twice equals applying it once —
and satisfies the concrete equalities `slugify "Hello, World!" =
"hello-world"` and `slugify "a   b--c" = "a-b-c"` (consecutive separator
characters collapse to a single hyphen). -/
theorem c8_slugify_idempotent :
    (∀ x : Str, slugify (slugify x) = slugify x) ∧
    slugify "Hello, World!".toList = "hello-world".toList ∧
    slugify "a   b--c".toList = "a-b-c".toList := by
  refine ⟨?_, by decide, by decide⟩
  intro s
  have hchars := slugChars_slugify s
  have hdef : slugify s =
      joinSep '-' ((splitChar '-' (slugChars s)).filter (fun g => !g.isEmpty)) := rfl
  have hsep : ∀ g ∈ (splitChar '-' (slugChars s)).filter (fun g => !g.isEmpty), '-' ∉ g :=
    fun g hgmem => mem_splitChar_not_sep '-' (slugChars s) g (List.mem_filter.mp hgmem).1
  by_cases hnil : (splitChar '-' (slugChars s)).filter (fun g => !g.isEmpty) = []
  · rw [hdef, hnil]
    decide
  · calc slugify (slugify s)
        = joinSep '-' ((splitChar '-' (slugChars (slugify s))).filter (fun g => !g.isEmpty)) := rfl
      _ = joinSep '-' ((splitChar '-' (slugify s)).filter (fun g => !g.isEmpty)) := by
          rw [hchars]
      _ = joinSep '-'
            (((splitChar '-' (slugChars s)).filter (fun g => !g.isEmpty)).filter
              (fun g => !g.isEmpty)) := by
          conv_lhs => rw [hdef, splitChar_joinSep '-' _ hnil hsep]
      _ = joinSep '-' ((splitChar '-' (slugChars s)).filter (fun g => !g.isEmpty)) := by
          rw [List.filter_eq_self.mpr (fun g hg => (List.mem_filter.mp hg).2)]
      _ = slugify s := hdef.symm

/-! ### Facts about the first-occurrence character split -/

theorem splitOnceChar_eq_none (sep : Char) (url : Str) (h : sep ∉ url) :
    splitOnceChar sep url = Option.none := by
  induction url with
  | nil => rfl
  | cons c rest ih =>
    have hc : c ≠ sep := fun he => h (he ▸ List.mem_cons_self c rest)
    have hrest : sep ∉ rest := fun he => h (List.mem_cons.mpr (Or.inr he))
    simp [splitOnceChar, hc, ih hrest]

theorem splitOnceChar_eq_some (sep : Char) (p a : Str) (h : sep ∉ p) :
    splitOnceChar sep (p ++ sep :: a) = some (p, a) := by
  induction p with
  | nil => simp [splitOnceChar]
  | cons c rest ih =>
    have hc : c ≠ sep := fun he => h (he ▸ List.mem_cons_self c rest)
    have hrest : sep ∉ rest := fun he => h (List.mem_cons.mpr (Or.inr he))
    simp [splitOnceChar, hc, ih hrest]

theorem parse_link_target_cons (c : Char) (rest : Str) (hc : c ≠ '#') :
    parse_link_target (c :: rest) =
      (if startsWithStr "http://".toList (c :: rest) ||
          startsWithStr "https://".toList (c :: rest) then
        LinkTarget.external (c :: rest)
      else
        match splitOnceChar '#' (c :: rest) with
        | some (p, a) => LinkTarget.relativeFile p (some a)
        | Option.none => LinkTarget.relativeFile (c :: rest) Option.none) := by
  rw [parse_link_target.eq_def]
  split
  · rename_i heq
    injection heq with h1 _
    exact absurd h1 hc
  · rfl

/-- C6: URL classification is mutually exclusive and checked in order — a
leading `#` yields an anchor of the remainder; otherwise an `http://` or
`https://` scheme yields an external link; otherwise a relative file, split
at the first `#` into path and optional anchor; and concretely
`../guide.md#usage` classifies as the relative file `../guide.md` with anchor
`usage`. -/
theorem c6_parse_link_target_classification :
    (∀ rest : Str, parse_link_target ('#' :: rest) = LinkTarget.anchor rest) ∧
    (∀ url : Str, url.head? ≠ some '#' →
      (startsWithStr "http://".toList url = true ∨ startsWithStr "https://".toList url = true) →
      parse_link_target url = LinkTarget.external url) ∧
    (∀ url : Str, url.head? ≠ some '#' →
      startsWithStr "http://".toList url = false →
      startsWithStr "https://".toList url = false →
      ('#' ∉ url → parse_link_target url = LinkTarget.relativeFile url Option.none) ∧
      (∀ p a : Str, '#' ∉ p → url = p ++ '#' :: a →
        parse_link_target url = LinkTarget.relativeFile p (some a))) ∧
    parse_link_target "../guide.md#usage".toList =
      LinkTarget.relativeFile "../guide.md".toList (some "usage".toList) := by
  refine ⟨fun rest => rfl, ?_, ?_, by decide⟩
  · intro url hh hscheme
    match url with
    | [] =>
      rcases hscheme with h | h <;> simp [startsWithStr] at h
    | c :: rest =>
      have hc : c ≠ '#' := by
        intro he
        exact hh (by simp [he])
      rw [parse_link_target_cons c rest hc]
      rcases hscheme with h | h <;> rw [h] <;> simp
  · intro url hh h1 h2
    constructor
    · intro hmem
      match url with
      | [] => rfl
      | c :: rest =>
        have hc : c ≠ '#' := by
          intro he
          exact hh (by simp [he])
        rw [parse_link_target_cons c rest hc, h1, h2]
        simp [splitOnceChar_eq_none '#' (c :: rest) hmem]
    · intro p a hp hurl
      subst hurl
      match p, hp with
      | [], _ =>
        exact absurd (by simp) hh
      | c :: prest, hp =>
        have hc : c ≠ '#' := fun he => hp (he ▸ List.mem_cons_self c prest)
        rw [show ((c :: prest) ++ '#' :: a) = c :: (prest ++ '#' :: a) from rfl] at h1 h2 ⊢
        rw [parse_link_target_cons c (prest ++ '#' :: a) hc, h1, h2]
        have hsplit := splitOnceChar_eq_some '#' (c :: prest) a hp
        rw [show ((c :: prest) ++ '#' :: a) = c :: (prest ++ '#' :: a) from rfl] at hsplit
        simp [hsplit]

/-- Witness for C6: the classification applied at concrete URLs of each
non-anchor kind. -/
theorem c6_parse_link_target_classification_witness :
    parse_link_target "http://x".toList = LinkTarget.external "http://x".toList ∧
    parse_link_target "a.md".toList = LinkTarget.relativeFile "a.md".toList Option.none ∧
    parse_link_target "../guide.md#usage".toList =
      LinkTarget.relativeFile "../guide.md".toList (some "usage".toList) :=
  ⟨c6_parse_link_target_classification.2.1 "http://x".toList (by decide) (Or.inl (by decide)),
   (c6_parse_link_target_classification.2.2.1 "a.md".toList (by decide) (by decide)
      (by decide)).1 (by decide),
   (c6_parse_link_target_classification.2.2.1 "../guide.md#usage".toList (by decide) (by decide)
      (by decide)).2 "../guide.md".toList "usage".toList (by decide) (by decide)⟩

/-! ### Substring search facts -/

theorem strFind_eq_none_iff (needle hay : Str) :
    strFind needle hay = Option.none ↔ ∀ i, ¬ occursAt needle hay i := by
  induction hay with
  | nil =>
    by_cases h : needle = []
    · subst h
      simp [strFind, occursAt]
    · simp only [strFind, if_neg h]
      constructor
      · intro _ i hocc
        simp only [occursAt, List.drop_nil, List.take_nil] at hocc
        exact h hocc.symm
      · intro _
        trivial
  | cons c rest ih =>
    constructor
    · intro hnone i
      rw [strFind] at hnone
      by_cases h0 : (c :: rest).take needle.length = needle
      · rw [if_pos h0] at hnone
        exact absurd hnone (by simp)
      · rw [if_neg h0] at hnone
        have hrest : strFind needle rest = Option.none := by
          cases hfr : strFind needle rest with
          | none => rfl
          | some k =>
            rw [hfr] at hnone
            simp at hnone
        cases i with
        | zero => exact fun hocc => h0 hocc
        | succ j => exact fun hocc => (ih.mp hrest) j hocc
    · intro hall
      have h0 : List.take needle.length (c :: rest) ≠ needle := hall 0
      rw [strFind, if_neg h0, ih.mpr (fun j hocc => hall (j + 1) hocc)]
      rfl

/-- C2: section extraction searches for the exact marker — `level` many `#`
characters, a space, and the heading text — and when that marker occurs
nowhere in the source it returns the empty section `(empty content, offset 0,
line 0)` silently; being a total function, it raises no error. -/
theorem c2_extract_section_missing_marker (h : Heading) (full : Str)
    (hnone : ∀ i, ¬ occursAt (headingMarker h) full i) :
    extract_section_content h full = ([], 0, 0) := by
  unfold extract_section_content
  rw [(strFind_eq_none_iff (headingMarker h) full).mpr hnone]

/-- Witness for C2: a level-2 heading whose marker `## Missing` does not
occur in the source. -/
theorem c2_extract_section_missing_marker_witness :
    extract_section_content ⟨2, "Missing".toList⟩ "# Title\nbody".toList = ([], 0, 0) :=
  c2_extract_section_missing_marker ⟨2, "Missing".toList⟩ "# Title\nbody".toList
    ((strFind_eq_none_iff (headingMarker ⟨2, "Missing".toList⟩) "# Title\nbody".toList).mp
      (by decide))

/-! ### Facts about the wikilink scan -/

theorem wikiScan_nil (f pos : Nat) (links : List Link) :
    wikiScan f pos [] links = links := by
  cases f <;> rfl

theorem wikiScan_opener (f pos : Nat) (rest : Str) (links : List Link) :
    wikiScan (f + 1) pos ('[' :: '[' :: rest) links =
      (match findCloseIdx rest with
       | Option.none => links
       | some i =>
         wikiScan f (pos + i + 4) (rest.drop (i + 2))
           (if (rest.take i).isEmpty then links
            else links ++ [mkWikiLink (rest.take i) pos])) := rfl

theorem wikiScan_cons_ne (f pos : Nat) (c : Char) (rest : Str) (links : List Link)
    (h : ∀ r : Str, c :: rest ≠ '[' :: '[' :: r) :
    wikiScan (f + 1) pos (c :: rest) links = wikiScan f (pos + 1) rest links := by
  rw [wikiScan.eq_def]
  split
  · rename_i heq
    simp at heq
  · rename_i heq
    simp at heq
  · rename_i heq
    exact absurd heq (h _)
  · rename_i f2 head2 rest2 hexcl heq1 heq2
    injection heq2 with hh ht
    have hf : f = f2 := Nat.succ.inj heq1
    subst hh
    subst ht
    subst hf
    rfl

theorem findCloseIdx_eq_none_iff (s : Str) :
    findCloseIdx s = Option.none ↔ ∀ i, (s.drop i).take 2 ≠ [']', ']'] := by
  induction s with
  | nil =>
    constructor
    · intro _ i
      simp
    · intro _
      rfl
  | cons c rest ih =>
    rw [findCloseIdx.eq_def]
    split
    · rename_i heq
      simp at heq
    · rename_i r heq
      injection heq with h1 h2
      subst h1
      subst h2
      constructor
      · intro hcontra
        exact absurd hcontra (by simp)
      · intro hall
        exact absurd (show ((']' :: ']' :: r).drop 0).take 2 = [']', ']'] from rfl) (hall 0)
    · rename_i c2 rest2 hexcl heq
      injection heq with h1 h2
      subst h1
      subst h2
      rw [Option.map_eq_none', ih]
      constructor
      · intro hall i
        cases i with
        | zero =>
          rcases rest with _ | ⟨d, r2⟩
          · simp
          · intro habs
            simp only [List.drop_zero] at habs
            have hc : c = ']' := by
              have := congrArg (fun l => l.head?) habs
              simpa using this
            have hd : d = ']' := by
              have := congrArg (fun l => l.tail.head?) habs
              simpa using this
            exact hexcl r2 hc (by rw [hd])
        | succ j => exact hall j
      · intro hall j
        exact hall (j + 1)

theorem wikiScan_noClosing : ∀ (f pos : Nat) (s : Str) (links : List Link),
    (∀ i, (s.drop i).take 2 ≠ [']', ']']) → wikiScan f pos s links = links := by
  intro f
  induction f with
  | zero =>
    intro pos s links _
    rfl
  | succ f ih =>
    intro pos s links h
    rcases s with _ | ⟨c, rest⟩
    · rfl
    · by_cases hop : ∃ r, c :: rest = '[' :: '[' :: r
      · obtain ⟨r, hr⟩ := hop
        injection hr with h1 h2
        subst h1
        subst h2
        rw [wikiScan_opener,
          (findCloseIdx_eq_none_iff r).mpr (fun i => h (i + 2))]
      · push_neg at hop
        rw [wikiScan_cons_ne f pos c rest links hop]
        exact ih (pos + 1) rest links (fun i => h (i + 1))

theorem wikiScan_append : ∀ (f pos : Nat) (s : Str) (links : List Link),
    wikiScan f pos s links = links ++ wikiScan f pos s [] := by
  intro f
  induction f with
  | zero =>
    intro pos s links
    simp [wikiScan]
  | succ f ih =>
    intro pos s links
    rcases s with _ | ⟨c, rest⟩
    · simp [wikiScan_nil]
    · by_cases hop : ∃ r, c :: rest = '[' :: '[' :: r
      · obtain ⟨r, hr⟩ := hop
        injection hr with h1 h2
        subst h1
        subst h2
        rw [wikiScan_opener, wikiScan_opener]
        cases hfc : findCloseIdx r with
        | none => simp
        | some i =>
          by_cases hemp : (r.take i).isEmpty
          · simp only [if_pos hemp]
            exact ih (pos + i + 4) (r.drop (i + 2)) links
          · simp only [if_neg hemp]
            rw [ih (pos + i + 4) (r.drop (i + 2)) (links ++ [mkWikiLink (r.take i) pos]),
              ih (pos + i + 4) (r.drop (i + 2)) ([] ++ [mkWikiLink (r.take i) pos])]
            simp
      · push_neg at hop
        rw [wikiScan_cons_ne f pos c rest links hop, wikiScan_cons_ne f pos c rest [] hop]
        exact ih (pos + 1) rest links

theorem wikiScan_eq_of_le : ∀ (f g : Nat) (s : Str), s.length ≤ f → s.length ≤ g →
    ∀ (pos : Nat) (links : List Link), wikiScan f pos s links = wikiScan g pos s links := by
  intro f
  induction f with
  | zero =>
    intro g s hf _ pos links
    have hs : s = [] := List.eq_nil_of_length_eq_zero (Nat.le_zero.mp hf)
    subst hs
    rw [wikiScan_nil, wikiScan_nil]
  | succ f ih =>
    intro g s hf hg pos links
    rcases s with _ | ⟨c, rest⟩
    · rw [wikiScan_nil, wikiScan_nil]
    · rcases g with _ | g
      · simp at hg
      · by_cases hop : ∃ r, c :: rest = '[' :: '[' :: r
        · obtain ⟨r, hr⟩ := hop
          injection hr with h1 h2
          subst h1
          subst h2
          simp only [List.length_cons] at hf hg
          rw [wikiScan_opener, wikiScan_opener]
          cases hfc : findCloseIdx r with
          | none => rfl
          | some i =>
            apply ih
            · simp only [List.length_drop]
              omega
            · simp only [List.length_drop]
              omega
        · push_neg at hop
          simp only [List.length_cons] at hf hg
          rw [wikiScan_cons_ne f pos c rest links hop,
            wikiScan_cons_ne g pos c rest links hop]
          apply ih <;> omega

/-- C9: a wikilink opener `[[` with no closing `]]` before the end of the
input contributes no link — on any fragment containing no `]]` pair at all
the wikilink scan returns its accumulated links unchanged — and on the
concrete input `[[incomplete`, whose only link-like construct is the
unterminated wikilink, the wikilink pass produces zero links. -/
theorem c9_unterminated_wikilink :
    (∀ (pos : Nat) (s : Str) (links : List Link),
      (∀ i, (s.drop i).take 2 ≠ [']', ']']) →
      extract_wikilinks pos s links = links) ∧
    extract_wikilinks 0 "[[incomplete".toList [] = [] := by
  constructor
  · intro pos s links h
    exact wikiScan_noClosing s.length pos s links h
  · decide

/-- Witness for C9: the no-closing-pair hypothesis discharged on a concrete
fragment with an opener and no `]]`. -/
theorem c9_unterminated_wikilink_witness :
    extract_wikilinks 0 "ab [[xy".toList [] = [] :=
  c9_unterminated_wikilink.1 0 "ab [[xy".toList []
    ((findCloseIdx_eq_none_iff "ab [[xy".toList).mp (by decide))

/-- C10: a terminated wikilink run with empty bracketed content produces no
link — scanning `[[]]` followed by anything continues four characters
further with the links unchanged — and `extract_links` on the fragment
`[[]]`, whose only link-like construct is the empty wikilink, returns no
links at all. -/
theorem c10_empty_wikilink :
    (∀ (pos : Nat) (rest : Str) (links : List Link),
      extract_wikilinks pos ('[' :: '[' :: ']' :: ']' :: rest) links =
        extract_wikilinks (pos + 4) rest links) ∧
    (∀ tok : Str → List (Event × Nat), tok "[[]]".toList = c10Events →
      extract_links tok "[[]]".toList = []) := by
  constructor
  · intro pos rest links
    have hstep : wikiScan ('[' :: '[' :: ']' :: ']' :: rest).length pos
        ('[' :: '[' :: ']' :: ']' :: rest) links
        = wikiScan (rest.length + 3) (pos + 4) rest links := rfl
    show wikiScan ('[' :: '[' :: ']' :: ']' :: rest).length pos
        ('[' :: '[' :: ']' :: ']' :: rest) links = wikiScan rest.length (pos + 4) rest links
    rw [hstep]
    exact wikiScan_eq_of_le (rest.length + 3) rest.length rest (by omega) (Nat.le_refl _)
      (pos + 4) links
  · intro tok htok
    unfold extract_links
    rw [htok]
    decide

/-- Witness for C10: the tokenizer hypothesis discharged by the modelled
event stream itself. -/
theorem c10_empty_wikilink_witness :
    extract_links (fun _ => c10Events) "[[]]".toList = [] :=
  c10_empty_wikilink.2 (fun _ => c10Events) rfl

/-- C5: the link extractor returns the pass-1 standard markdown links (in
document order) followed by the pass-2 wikilinks (in document order),
concatenated in pass order rather than sorted by offset; on the concrete
mixed fragment it yields exactly the anchor link first and the wikilink
second. -/
theorem c5_extract_links_pass_order :
    (∀ (tok : Str → List (Event × Nat)) (content : Str),
      extract_links tok content = passOne (tok content) ++ extract_wikilinks 0 content []) ∧
    (∀ tok : Str → List (Event × Nat), tok c5Input = c5Events →
      extract_links tok c5Input =
        [Link.mk "Installation".toList (LinkTarget.anchor "installation".toList) 4,
         Link.mk "contributing".toList (LinkTarget.wikiLink "contributing".toList Option.none) 46]) := by
  constructor
  · intro tok content
    unfold extract_links extract_wikilinks
    exact wikiScan_append content.length 0 content (passOne (tok content))
  · intro tok htok
    unfold extract_links
    rw [htok]
    decide

/-- Witness for C5: the tokenizer hypothesis discharged by the modelled
event stream itself. -/
theorem c5_extract_links_pass_order_witness :
    extract_links (fun _ => c5Events) c5Input =
      [Link.mk "Installation".toList (LinkTarget.anchor "installation".toList) 4,
       Link.mk "contributing".toList (LinkTarget.wikiLink "contributing".toList Option.none) 46] :=
  c5_extract_links_pass_order.2 (fun _ => c5Events) rfl

/-! ### The section-end search agrees with its boundary specification -/

theorem fnhGo_step (cur : Nat) (line : Str) (rest : List Str) (seed : Bool) (pos : Nat) :
    fnhGo cur (line :: rest) seed pos =
      (if isBoundaryLineFrom cur seed (line :: rest) 0 then some pos
       else fnhGo cur rest (if startsTicks line then !seed else seed) (pos + line.length + 1)) :=
  rfl

theorem isBoundaryLineFrom_succ (cur : Nat) (seed : Bool) (line : Str) (rest : List Str)
    (i : Nat) :
    isBoundaryLineFrom cur seed (line :: rest) (i + 1) =
      isBoundaryLineFrom cur (if startsTicks line then !seed else seed) rest i :=
  rfl

theorem fnhGo_spec (cur : Nat) : ∀ (lines : List Str) (seed : Bool) (pos : Nat),
    fnhGo cur lines seed pos =
      (match (List.range lines.length).find? (isBoundaryLineFrom cur seed lines) with
       | some j => some (pos + lineOffset lines j)
       | Option.none => Option.none) := by
  intro lines
  induction lines with
  | nil =>
    intro seed pos
    rfl
  | cons line rest ih =>
    intro seed pos
    rw [fnhGo_step, List.length_cons, List.range_succ_eq_map, List.find?_cons]
    by_cases hb : isBoundaryLineFrom cur seed (line :: rest) 0
    · rw [if_pos hb, hb]
      simp [lineOffset]
    · rw [if_neg hb, Bool.of_not_eq_true hb]
      rw [ih (if startsTicks line then !seed else seed) (pos + line.length + 1)]
      rw [List.find?_map]
      have hcomp : (isBoundaryLineFrom cur seed (line :: rest)) ∘ Nat.succ =
          isBoundaryLineFrom cur (if startsTicks line then !seed else seed) rest :=
        funext (fun j => isBoundaryLineFrom_succ cur seed line rest j)
      rw [hcomp]
      cases hfind : (List.range rest.length).find?
          (isBoundaryLineFrom cur (if startsTicks line then !seed else seed) rest) with
      | none => rfl
      | some j =>
        simp only [Option.map_some']
        have hoff : lineOffset (line :: rest) (j + 1) =
            line.length + 1 + lineOffset rest j := by
          simp [lineOffset, List.take_succ_cons]
        rw [hoff]
        have : pos + line.length + 1 + lineOffset rest j =
            pos + (line.length + 1 + lineOffset rest j) := by omega
        rw [this]

/-- C3: the section-end search of `find_next_heading` returns the offset of
the first line that is a valid heading (non-empty `#` run followed directly
by whitespace) of level at most the current heading's level and that is not
inside a fenced code region — the fence state being toggled by any line
whose trimmed form starts with a triple backtick, so fenced lines are never
treated as headings — and the content length when no such line exists. -/
theorem c3_find_next_heading_correct (content : Str) (cur : Nat) :
    find_next_heading content cur = boundarySpec content cur := by
  unfold find_next_heading boundarySpec
  rw [fnhGo_spec]
  cases hfind : (List.range (splitLines content).length).find?
      (isBoundaryLine cur (splitLines content)) with
  | none =>
    rw [show isBoundaryLineFrom cur false (splitLines content) =
      isBoundaryLine cur (splitLines content) from rfl, hfind]
    rfl
  | some j =>
    rw [show isBoundaryLineFrom cur false (splitLines content) =
      isBoundaryLine cur (splitLines content) from rfl, hfind]
    simp

/-- C4: on the ordered-list-with-fenced-code fragment (`1. Test1:` with an
indented fence, a blank line, `2. Test2:` with plain continuation text), the
parser yields exactly one ordered `List` block with two items — item 1 with
content `Test1:` and exactly one nested code block whose content is `test1`,
item 2 with no nested blocks and content `Test2: test2`, which contains both
`Test2:` and `test2`. -/
theorem c4_list_with_code_block (tok : Str → List Event) (htok : tok c4Input = c4Events) :
    parse_content tok 1 c4Input 0 =
      [Block.list true
        [ListItem.mk Option.none "Test1:".toList [InlineElement.text "Test1:".toList]
           [Block.code Option.none "test1".toList 0 0],
         ListItem.mk Option.none "Test2: test2".toList
           [InlineElement.text "Test2:".toList, InlineElement.text [' '],
            InlineElement.text "test2".toList] []]] := by
  have h1 : extract_details_blocks (fun md line => ([] : List Block)) c4Input =
      (c4Input, ([] : List Block)) := rfl
  simp only [parse_content, h1, htok]
  rfl

/-- Witness for C4: the tokenizer hypothesis discharged by the modelled
event stream itself. -/
theorem c4_list_with_code_block_witness :
    parse_content (fun _ => c4Events) 1 c4Input 0 =
      [Block.list true
        [ListItem.mk Option.none "Test1:".toList [InlineElement.text "Test1:".toList]
           [Block.code Option.none "test1".toList 0 0],
         ListItem.mk Option.none "Test2: test2".toList
           [InlineElement.text "Test2:".toList, InlineElement.text [' '],
            InlineElement.text "test2".toList] []]] :=
  c4_list_with_code_block (fun _ => c4Events) rfl

/-! ### The badge pattern of the content parser -/

theorem processEvents_text_accum (parse : Str → Nat → List Block) :
    ∀ (alts : List Str) (s : ParserState) (blocks : List Block),
    s.in_code = false → s.in_blockquote = false → s.in_heading = false →
    (s.in_link || s.in_image) = true →
    (alts.map Event.text).foldl (fun sb e => process_event parse e sb) (s, blocks) =
      ({ s with link_text := s.link_text ++ alts.flatten }, blocks) := by
  intro alts
  induction alts with
  | nil =>
    intro s blocks _ _ _ _
    simp
  | cons a rest ih =>
    intro s blocks h2 h3 h4 h5
    have hstep : process_event parse (Event.text a) (s, blocks) =
        ({ s with link_text := s.link_text ++ a }, blocks) := by
      simp [process_event, h2, h3, h4, h5]
    rw [List.map_cons, List.foldl_cons, hstep,
      ih { s with link_text := s.link_text ++ a } blocks (by simp [h2]) (by simp [h3])
        (by simp [h4]) (by simp [h5])]
    simp

/-- C7: the badge pattern — from any state with a link open, processing an
image-start event, the image's alt-text runs, the image end and the link end
emits exactly one inline `Link`, whose text is the image's alt text and whose
URL is the link's originally saved destination (not the image's own source);
no inline `Image` element is produced and the block list is untouched. -/
theorem c7_badge_pattern (parse : Str → Nat → List Block) (s : ParserState)
    (blocks : List Block) (src title : Str) (alts : List Str)
    (h1 : s.in_link = true) (h2 : s.in_code = false) (h3 : s.in_blockquote = false)
    (h4 : s.in_heading = false) :
    (Event.startImage src title :: (alts.map Event.text ++ [Event.endImage, Event.endLink])).foldl
        (fun sb e => process_event parse e sb) (s, blocks) =
      ({ s with in_link := false, in_image := false, image_in_link := false,
                link_text := [], link_url := [], saved_link_url := [],
                paragraph_buffer := title ++ fmtLink alts.flatten s.link_url,
                inline_buffer := s.inline_buffer ++
                  [InlineElement.link alts.flatten s.link_url Option.none] }, blocks) := by
  have hstep1 : process_event parse (Event.startImage src title) (s, blocks) =
      ({ s with image_in_link := true, saved_link_url := s.link_url, in_image := true,
                link_url := src, link_text := [], paragraph_buffer := title }, blocks) := by
    simp [process_event, h1]
  rw [List.foldl_cons, hstep1, List.foldl_append]
  rw [processEvents_text_accum parse alts _ blocks (by simp [h2]) (by simp [h3])
    (by simp [h4]) (by simp)]
  simp [process_event, h1]

/-- Witness for C7: the badge sequence processed from a concrete open-link
state, producing the single inline link with the outer URL. -/
theorem c7_badge_pattern_witness :
    (Event.startImage "img.png".toList [] ::
        (["alt".toList].map Event.text ++ [Event.endImage, Event.endLink])).foldl
        (fun sb e => process_event (fun _ _ => []) e sb)
        ({ ParserState.new 0 with in_link := true, link_url := "http://outer".toList }, []) =
      ({ ParserState.new 0 with
          in_link := false, in_image := false, image_in_link := false,
          link_text := [], link_url := [], saved_link_url := [],
          paragraph_buffer := [] ++ fmtLink (["alt".toList].flatten) "http://outer".toList,
          inline_buffer := [] ++
            [InlineElement.link (["alt".toList].flatten) "http://outer".toList Option.none] },
       []) :=
  c7_badge_pattern (fun _ _ => [])
    { ParserState.new 0 with in_link := true, link_url := "http://outer".toList }
    [] "img.png".toList [] ["alt".toList] rfl rfl rfl rfl

/-! ### The heading-tree builder -/

theorem build_tree_nil : build_tree [] = [] := by
  rw [build_tree]

theorem build_tree_cons (h : Heading) (rest : List Heading) :
    build_tree (h :: rest) =
      HeadingNode.mk h (build_tree (rest.takeWhile (fun x => decide (h.level < x.level)))) ::
        build_tree (rest.dropWhile (fun x => decide (h.level < x.level))) := by
  rw [build_tree]

theorem build_itree_nil : build_itree [] = [] := by
  rw [build_itree]

theorem build_itree_cons (h : IHeading) (rest : List IHeading) :
    build_itree (h :: rest) =
      INode.mk h (build_itree (rest.takeWhile (fun x => decide (h.level < x.level)))) ::
        build_itree (rest.dropWhile (fun x => decide (h.level < x.level))) := by
  rw [build_itree]

theorem dropWhile_head_false {α : Type} (p : α → Bool) :
    ∀ (l t : List α) (q : α), l.dropWhile p = q :: t → p q = false := by
  intro l
  induction l with
  | nil =>
    intro t q h
    simp [List.dropWhile] at h
  | cons c rest ih =>
    intro t q h
    rw [List.dropWhile_cons] at h
    by_cases hc : p c
    · rw [if_pos hc] at h
      exact ih t q h
    · rw [if_neg hc] at h
      injection h with h1 _
      rw [← h1]
      exact Bool.of_not_eq_true hc

theorem flatForest_append : ∀ (ns ms : List HeadingNode),
    flatForest (ns ++ ms) = flatForest ns ++ flatForest ms := by
  intro ns ms
  induction ns with
  | nil => rfl
  | cons n rest ih =>
    simp only [List.cons_append, flatForest, List.append_eq, ih, List.append_assoc]

/-! ### Contiguity of indexed headings -/

theorem idxFrom_contig : ∀ (hs : List Heading) (b : Nat), Contig b (idxFrom b hs) := by
  intro hs
  induction hs with
  | nil =>
    intro b
    trivial
  | cons h rest ih =>
    intro b
    exact ⟨rfl, ih (b + 1)⟩

theorem contig_append_iff : ∀ (xs ys : List IHeading) (b : Nat),
    Contig b (xs ++ ys) ↔ (Contig b xs ∧ Contig (b + xs.length) ys) := by
  intro xs
  induction xs with
  | nil =>
    intro ys b
    simp only [List.nil_append, List.length_nil, Nat.add_zero]
    exact ⟨fun h => ⟨trivial, h⟩, fun h => h.2⟩
  | cons x rest ih =>
    intro ys b
    simp only [List.cons_append, Contig, List.length_cons, List.append_eq]
    rw [ih ys (b + 1)]
    constructor
    · rintro ⟨h1, h2, h3⟩
      refine ⟨⟨h1, h2⟩, ?_⟩
      have : b + (rest.length + 1) = b + 1 + rest.length := by omega
      rw [this]
      exact h3
    · rintro ⟨⟨h1, h2⟩, h3⟩
      refine ⟨h1, h2, ?_⟩
      have : b + 1 + rest.length = b + (rest.length + 1) := by omega
      rw [this]
      exact h3

theorem contig_mem_lb : ∀ (l : List IHeading) (b : Nat) (x : IHeading),
    Contig b l → x ∈ l → b ≤ x.idx := by
  intro l
  induction l with
  | nil =>
    intro b x _ hx
    simp at hx
  | cons y rest ih =>
    intro b x hc hx
    rcases List.mem_cons.mp hx with h | h
    · subst h
      rw [hc.1]
    · exact Nat.le_of_succ_le (ih (b + 1) x hc.2 h)

theorem contig_mem_ub : ∀ (l : List IHeading) (b : Nat) (x : IHeading),
    Contig b l → x ∈ l → x.idx < b + l.length := by
  intro l
  induction l with
  | nil =>
    intro b x _ hx
    simp at hx
  | cons y rest ih =>
    intro b x hc hx
    simp only [List.length_cons]
    rcases List.mem_cons.mp hx with h | h
    · subst h
      rw [hc.1]
      omega
    · have := ih (b + 1) x hc.2 h
      omega

/-! ### Pre-order flattening and the level invariants of the built forest -/

theorem flatForest_build_tree : ∀ (n : Nat) (hs : List Heading), hs.length ≤ n →
    flatForest (build_tree hs) = hs := by
  intro n
  induction n with
  | zero =>
    intro hs hlen
    have : hs = [] := List.eq_nil_of_length_eq_zero (Nat.le_zero.mp hlen)
    subst this
    rw [build_tree_nil]
    rfl
  | succ n ih =>
    intro hs hlen
    rcases hs with _ | ⟨h, rest⟩
    · rw [build_tree_nil]
      rfl
    · simp only [List.length_cons] at hlen
      rw [build_tree_cons]
      show HeadingNode.flat _ ++
        flatForest (build_tree (rest.dropWhile (fun x => decide (h.level < x.level)))) = _
      rw [show HeadingNode.flat
          (HeadingNode.mk h (build_tree (rest.takeWhile (fun x => decide (h.level < x.level))))) =
          h :: flatForest (build_tree (rest.takeWhile (fun x => decide (h.level < x.level))))
          from rfl]
      rw [ih _ (Nat.le_trans (List.takeWhile_sublist _).length_le (by omega)),
        ih _ (Nat.le_trans (List.dropWhile_sublist _).length_le (by omega))]
      rw [List.cons_append, List.takeWhile_append_dropWhile]

theorem build_tree_root_mem : ∀ (n : Nat) (hs : List Heading), hs.length ≤ n →
    ∀ r ∈ build_tree hs, r.heading ∈ hs := by
  intro n
  induction n with
  | zero =>
    intro hs hlen r hr
    have : hs = [] := List.eq_nil_of_length_eq_zero (Nat.le_zero.mp hlen)
    subst this
    rw [build_tree_nil] at hr
    simp at hr
  | succ n ih =>
    intro hs hlen r hr
    rcases hs with _ | ⟨h, rest⟩
    · rw [build_tree_nil] at hr
      simp at hr
    · simp only [List.length_cons] at hlen
      rw [build_tree_cons] at hr
      rcases List.mem_cons.mp hr with h1 | h1
      · subst h1
        exact List.mem_cons_self _ _
      · have := ih _ (Nat.le_trans (List.dropWhile_sublist _).length_le (by omega)) r h1
        exact List.mem_cons.mpr (Or.inr ((List.dropWhile_sublist _).subset this))

theorem childPairsF_build_tree_lt : ∀ (n : Nat) (hs : List Heading), hs.length ≤ n →
    ∀ pc ∈ childPairsF (build_tree hs), pc.1.level < pc.2.level := by
  intro n
  induction n with
  | zero =>
    intro hs hlen pc hpc
    have : hs = [] := List.eq_nil_of_length_eq_zero (Nat.le_zero.mp hlen)
    subst this
    rw [build_tree_nil] at hpc
    simp [childPairsF] at hpc
  | succ n ih =>
    intro hs hlen pc hpc
    rcases hs with _ | ⟨h, rest⟩
    · rw [build_tree_nil] at hpc
      simp [childPairsF] at hpc
    · simp only [List.length_cons] at hlen
      have htlen : (rest.takeWhile (fun x => decide (h.level < x.level))).length ≤ n :=
        Nat.le_trans (List.takeWhile_sublist _).length_le (by omega)
      have hdlen : (rest.dropWhile (fun x => decide (h.level < x.level))).length ≤ n :=
        Nat.le_trans (List.dropWhile_sublist _).length_le (by omega)
      rw [build_tree_cons] at hpc
      rw [show childPairsF (HeadingNode.mk h (build_tree (rest.takeWhile
            (fun x => decide (h.level < x.level)))) ::
            build_tree (rest.dropWhile (fun x => decide (h.level < x.level)))) =
          ((build_tree (rest.takeWhile (fun x => decide (h.level < x.level)))).map
            (fun c => (h, c.heading)) ++
            childPairsF (build_tree (rest.takeWhile (fun x => decide (h.level < x.level))))) ++
            childPairsF (build_tree (rest.dropWhile (fun x => decide (h.level < x.level))))
          from rfl] at hpc
      rcases List.mem_append.mp hpc with h1 | h1
      · rcases List.mem_append.mp h1 with h2 | h2
        · rcases List.mem_map.mp h2 with ⟨c, hc, hpceq⟩
          subst hpceq
          have hmem : c.heading ∈ rest.takeWhile (fun x => decide (h.level < x.level)) :=
            build_tree_root_mem _ _ (Nat.le_refl _) c hc
          show h.level < c.heading.level
          have h3 := List.mem_takeWhile_imp hmem
          simpa using h3
        · exact ih _ htlen pc h2
      · exact ih _ hdlen pc h1

theorem ancPairsF_build_tree_lt : ∀ (n : Nat) (hs : List Heading), hs.length ≤ n →
    ∀ pc ∈ ancPairsF (build_tree hs), pc.1.level < pc.2.level := by
  intro n
  induction n with
  | zero =>
    intro hs hlen pc hpc
    have : hs = [] := List.eq_nil_of_length_eq_zero (Nat.le_zero.mp hlen)
    subst this
    rw [build_tree_nil] at hpc
    simp [ancPairsF] at hpc
  | succ n ih =>
    intro hs hlen pc hpc
    rcases hs with _ | ⟨h, rest⟩
    · rw [build_tree_nil] at hpc
      simp [ancPairsF] at hpc
    · simp only [List.length_cons] at hlen
      have htlen : (rest.takeWhile (fun x => decide (h.level < x.level))).length ≤ n :=
        Nat.le_trans (List.takeWhile_sublist _).length_le (by omega)
      have hdlen : (rest.dropWhile (fun x => decide (h.level < x.level))).length ≤ n :=
        Nat.le_trans (List.dropWhile_sublist _).length_le (by omega)
      rw [build_tree_cons] at hpc
      rw [show ancPairsF (HeadingNode.mk h (build_tree (rest.takeWhile
            (fun x => decide (h.level < x.level)))) ::
            build_tree (rest.dropWhile (fun x => decide (h.level < x.level)))) =
          ((flatForest (build_tree (rest.takeWhile (fun x => decide (h.level < x.level))))).map
            (fun d => (h, d)) ++
            ancPairsF (build_tree (rest.takeWhile (fun x => decide (h.level < x.level))))) ++
            ancPairsF (build_tree (rest.dropWhile (fun x => decide (h.level < x.level))))
          from rfl] at hpc
      rw [flatForest_build_tree _ _ htlen] at hpc
      rcases List.mem_append.mp hpc with h1 | h1
      · rcases List.mem_append.mp h1 with h2 | h2
        · rcases List.mem_map.mp h2 with ⟨d, hd, hpceq⟩
          subst hpceq
          show h.level < d.level
          have h3 := List.mem_takeWhile_imp hd
          simpa using h3
        · exact ih _ htlen pc h2
      · exact ih _ hdlen pc h1

/-! ### The nearest-preceding-shallower attachment rule, on indexed headings -/

theorem ibuild_inv : ∀ (n : Nat) (l : List IHeading), l.length ≤ n → ∀ (b : Nat), Contig b l →
    (∀ r ∈ build_itree l, r.head ∈ l ∧
      ∀ x ∈ l, x.idx < r.head.idx → r.head.level ≤ x.level) ∧
    (∀ pc ∈ ichildPairsF (build_itree l),
      pc.1 ∈ l ∧ pc.2 ∈ l ∧ pc.1.level < pc.2.level ∧ pc.1.idx < pc.2.idx ∧
      ∀ x ∈ l, pc.1.idx < x.idx → x.idx < pc.2.idx → pc.2.level ≤ x.level) := by
  intro n
  induction n with
  | zero =>
    intro l hlen b _
    have : l = [] := List.eq_nil_of_length_eq_zero (Nat.le_zero.mp hlen)
    subst this
    rw [build_itree_nil]
    constructor
    · intro r hr
      simp at hr
    · intro pc hpc
      simp [ichildPairsF] at hpc
  | succ n ih =>
    intro l hlen b hc
    rcases l with _ | ⟨h, rest⟩
    · rw [build_itree_nil]
      constructor
      · intro r hr
        simp at hr
      · intro pc hpc
        simp [ichildPairsF] at hpc
    · simp only [List.length_cons] at hlen
      obtain ⟨hb, hrest⟩ := hc
      have hsplit := List.takeWhile_append_dropWhile
        (fun x : IHeading => decide (h.level < x.level)) rest
      have hdesc_lvl : ∀ x ∈ rest.takeWhile (fun x => decide (h.level < x.level)),
          h.level < x.level := by
        intro x hx
        have h3 := List.mem_takeWhile_imp hx
        simpa using h3
      have hq0 : ∀ (q : IHeading) (t : List IHeading),
          rest.dropWhile (fun x => decide (h.level < x.level)) = q :: t →
          q.level ≤ h.level := by
        intro q t hq
        have h3 := dropWhile_head_false _ rest t q hq
        simpa using h3
      have htlen : (rest.takeWhile (fun x => decide (h.level < x.level))).length ≤ n :=
        Nat.le_trans (List.takeWhile_sublist _).length_le (by omega)
      have hdlen : (rest.dropWhile (fun x => decide (h.level < x.level))).length ≤ n :=
        Nat.le_trans (List.dropWhile_sublist _).length_le (by omega)
      rw [build_itree_cons]
      generalize hD : rest.takeWhile (fun x => decide (h.level < x.level)) = D
        at hsplit hdesc_lvl htlen ⊢
      generalize hR : rest.dropWhile (fun x => decide (h.level < x.level)) = R
        at hsplit hq0 hdlen ⊢
      have hcontig2 : Contig (b + 1) (D ++ R) := by
        rw [hsplit]
        exact hrest
      have hdescC : Contig (b + 1) D := ((contig_append_iff D R (b + 1)).mp hcontig2).1
      have hrest2C : Contig (b + 1 + D.length) R :=
        ((contig_append_iff D R (b + 1)).mp hcontig2).2
      have hmem_split : ∀ x : IHeading, x ∈ h :: rest → x = h ∨ x ∈ D ∨ x ∈ R := by
        intro x hx
        rcases List.mem_cons.mp hx with h1 | h1
        · exact Or.inl h1
        · rw [← hsplit] at h1
          rcases List.mem_append.mp h1 with h2 | h2
          · exact Or.inr (Or.inl h2)
          · exact Or.inr (Or.inr h2)
      have hmemD : ∀ x ∈ D, x ∈ h :: rest := by
        intro x hx
        refine List.mem_cons.mpr (Or.inr ?_)
        rw [← hsplit]
        exact List.mem_append.mpr (Or.inl hx)
      have hmemR : ∀ x ∈ R, x ∈ h :: rest := by
        intro x hx
        refine List.mem_cons.mpr (Or.inr ?_)
        rw [← hsplit]
        exact List.mem_append.mpr (Or.inr hx)
      have hD_lb : ∀ x ∈ D, b + 1 ≤ x.idx := fun x hx => contig_mem_lb D (b + 1) x hdescC hx
      have hD_ub : ∀ x ∈ D, x.idx < b + 1 + D.length :=
        fun x hx => contig_mem_ub D (b + 1) x hdescC hx
      have hR_lb : ∀ x ∈ R, b + 1 + D.length ≤ x.idx :=
        fun x hx => contig_mem_lb R (b + 1 + D.length) x hrest2C hx
      have ihd := ih D htlen (b + 1) hdescC
      have ihr := ih R hdlen (b + 1 + D.length) hrest2C
      have hroots2 : ∀ r ∈ build_itree R, r.head.level ≤ h.level := by
        intro r hr
        obtain ⟨hmem, hcond⟩ := ihr.1 r hr
        cases hq : R with
        | nil =>
          rw [hq] at hmem
          simp at hmem
        | cons q t =>
          have hqlvl : q.level ≤ h.level := hq0 q t hq
          have hcq : Contig (b + 1 + D.length) (q :: t) := hq ▸ hrest2C
          rw [hq] at hmem
          rcases List.mem_cons.mp hmem with h1 | h1
          · rw [h1]
            exact hqlvl
          · have hqidx : q.idx = b + 1 + D.length := hcq.1
            have hridx : b + 1 + D.length + 1 ≤ r.head.idx := contig_mem_lb t _ _ hcq.2 h1
            have h2 := hcond q (by rw [hq]; exact List.mem_cons_self q t) (by omega)
            omega
      constructor
      · intro r hr
        rcases List.mem_cons.mp hr with h1 | h1
        · subst h1
          refine ⟨List.mem_cons_self h rest, ?_⟩
          intro x hx hxidx
          exfalso
          rcases hmem_split x hx with h2 | h2 | h2
          · subst h2
            exact absurd hxidx (Nat.lt_irrefl _)
          · have := hD_lb x h2
            have hxb : x.idx < b := by
              rw [← hb]
              exact hxidx
            omega
          · have := hR_lb x h2
            have hxb : x.idx < b := by
              rw [← hb]
              exact hxidx
            omega
        · obtain ⟨hmem, hcond⟩ := ihr.1 r h1
          refine ⟨hmemR _ hmem, ?_⟩
          intro x hx hxidx
          rcases hmem_split x hx with h2 | h2 | h2
          · subst h2
            exact hroots2 r h1
          · exact Nat.le_trans (hroots2 r h1) (Nat.le_of_lt (hdesc_lvl x h2))
          · exact hcond x h2 hxidx
      · intro pc hpc
        rw [show ichildPairsF (INode.mk h (build_itree D) :: build_itree R) =
            ((build_itree D).map (fun c => (h, c.head)) ++ ichildPairsF (build_itree D)) ++
              ichildPairsF (build_itree R) from rfl] at hpc
        rcases List.mem_append.mp hpc with h1 | h1
        · rcases List.mem_append.mp h1 with h2 | h2
          · rcases List.mem_map.mp h2 with ⟨c, hcmem, hpceq⟩
            subst hpceq
            obtain ⟨hchead, hccond⟩ := ihd.1 c hcmem
            refine ⟨List.mem_cons_self h rest, hmemD _ hchead, hdesc_lvl _ hchead, ?_, ?_⟩
            · show h.idx < c.head.idx
              have := hD_lb _ hchead
              omega
            · intro x hx hx1 hx2
              rcases hmem_split x hx with h3 | h3 | h3
              · subst h3
                exact absurd hx1 (Nat.lt_irrefl _)
              · exact hccond x h3 hx2
              · exfalso
                have := hR_lb x h3
                have := hD_ub c.head hchead
                have hx2' : x.idx < c.head.idx := hx2
                omega
          · obtain ⟨hm1, hm2, hlvl, hidx, hcond⟩ := ihd.2 pc h2
            refine ⟨hmemD _ hm1, hmemD _ hm2, hlvl, hidx, ?_⟩
            intro x hx hx1 hx2
            rcases hmem_split x hx with h3 | h3 | h3
            · exfalso
              subst h3
              have := hD_lb pc.1 hm1
              omega
            · exact hcond x h3 hx1 hx2
            · exfalso
              have := hR_lb x h3
              have := hD_ub pc.2 hm2
              omega
        · obtain ⟨hm1, hm2, hlvl, hidx, hcond⟩ := ihr.2 pc h1
          refine ⟨hmemR _ hm1, hmemR _ hm2, hlvl, hidx, ?_⟩
          intro x hx hx1 hx2
          rcases hmem_split x hx with h3 | h3 | h3
          · exfalso
            subst h3
            have := hR_lb pc.1 hm1
            omega
          · exfalso
            have := hD_ub x h3
            have := hR_lb pc.1 hm1
            omega
          · exact hcond x h3 hx1 hx2

/-! ### The two builders produce the same level shape -/

theorem idxFrom_length : ∀ (hs : List Heading) (b : Nat),
    (idxFrom b hs).length = hs.length := by
  intro hs
  induction hs with
  | nil =>
    intro b
    rfl
  | cons h t ih =>
    intro b
    simp only [idxFrom, List.length_cons, ih (b + 1)]

theorem idxFrom_take_drop (lv : Nat) : ∀ (l : List Heading) (b : Nat),
    (idxFrom b l).takeWhile (fun x => decide (lv < x.level)) =
      idxFrom b (l.takeWhile (fun x => decide (lv < x.level))) ∧
    (idxFrom b l).dropWhile (fun x => decide (lv < x.level)) =
      idxFrom (b + (l.takeWhile (fun x => decide (lv < x.level))).length)
        (l.dropWhile (fun x => decide (lv < x.level))) := by
  intro l
  induction l with
  | nil =>
    intro b
    simp [idxFrom]
  | cons h t ih =>
    intro b
    have h1 := (ih (b + 1)).1
    have h2 := (ih (b + 1)).2
    by_cases hlv : lv < h.level
    · constructor
      · simp only [idxFrom, List.takeWhile_cons]
        simp [hlv, h1, idxFrom]
      · simp only [idxFrom, List.dropWhile_cons, List.takeWhile_cons]
        simp [hlv, h2]
        congr 1
        omega
    · constructor
      · simp only [idxFrom, List.takeWhile_cons]
        simp [hlv]
        rfl
      · simp only [idxFrom, List.dropWhile_cons, List.takeWhile_cons]
        simp [hlv, idxFrom]

theorem shape_bridge : ∀ (n : Nat) (hs : List Heading), hs.length ≤ n → ∀ (b : Nat),
    shapeForestH (build_tree hs) = shapeForestI (build_itree (idxFrom b hs)) := by
  intro n
  induction n with
  | zero =>
    intro hs hlen b
    have : hs = [] := List.eq_nil_of_length_eq_zero (Nat.le_zero.mp hlen)
    subst this
    rw [build_tree_nil, show idxFrom b [] = [] from rfl, build_itree_nil]
    rfl
  | succ n ih =>
    intro hs hlen b
    rcases hs with _ | ⟨h, rest⟩
    · rw [build_tree_nil, show idxFrom b [] = [] from rfl, build_itree_nil]
      rfl
    · simp only [List.length_cons] at hlen
      have htlen : (rest.takeWhile (fun x => decide (h.level < x.level))).length ≤ n :=
        Nat.le_trans (List.takeWhile_sublist _).length_le (by omega)
      have hdlen : (rest.dropWhile (fun x => decide (h.level < x.level))).length ≤ n :=
        Nat.le_trans (List.dropWhile_sublist _).length_le (by omega)
      rw [build_tree_cons,
        show idxFrom b (h :: rest) = IHeading.mk h.level b :: idxFrom (b + 1) rest from rfl,
        build_itree_cons]
      show LevelTree.mk h.level _ :: shapeForestH _ = LevelTree.mk _ _ :: shapeForestI _
      dsimp only
      rw [(idxFrom_take_drop h.level rest (b + 1)).1, (idxFrom_take_drop h.level rest (b + 1)).2]
      rw [ih _ htlen (b + 1), ih _ hdlen (b + 1 + _)]

/-- C1: for every flat heading sequence, `build_tree` produces a forest whose
pre-order flattening reproduces the input exactly; every child's level is
strictly greater than its parent's, and every strict descendant's level is
strictly greater than its ancestor's (so equal-level headings are never
nested); and — via the position-indexed builder of identical shape — every
root has no preceding heading of strictly smaller level, and every child is
attached to exactly the nearest preceding heading of strictly smaller level:
the parent precedes the child, has strictly smaller level, and every heading
strictly between them has level at least the child's (so equal-level
headings are always siblings). -/
theorem c1_build_tree_correct :
    (∀ hs : List Heading, flatForest (build_tree hs) = hs) ∧
    (∀ hs : List Heading, ∀ pc ∈ childPairsF (build_tree hs), pc.1.level < pc.2.level) ∧
    (∀ hs : List Heading, ∀ pc ∈ ancPairsF (build_tree hs), pc.1.level < pc.2.level) ∧
    (∀ (hs : List Heading) (b : Nat),
      shapeForestH (build_tree hs) = shapeForestI (build_itree (idxFrom b hs))) ∧
    (∀ hs : List Heading, ∀ r ∈ build_itree (idxFrom 0 hs),
      r.head ∈ idxFrom 0 hs ∧
      ∀ x ∈ idxFrom 0 hs, x.idx < r.head.idx → r.head.level ≤ x.level) ∧
    (∀ hs : List Heading, ∀ pc ∈ ichildPairsF (build_itree (idxFrom 0 hs)),
      pc.1 ∈ idxFrom 0 hs ∧ pc.2 ∈ idxFrom 0 hs ∧ pc.1.level < pc.2.level ∧
      pc.1.idx < pc.2.idx ∧
      ∀ x ∈ idxFrom 0 hs, pc.1.idx < x.idx → x.idx < pc.2.idx → pc.2.level ≤ x.level) :=
  ⟨fun hs => flatForest_build_tree hs.length hs (Nat.le_refl _),
   fun hs => childPairsF_build_tree_lt hs.length hs (Nat.le_refl _),
   fun hs => ancPairsF_build_tree_lt hs.length hs (Nat.le_refl _),
   fun hs b => shape_bridge hs.length hs (Nat.le_refl _) b,
   fun hs => (ibuild_inv (idxFrom 0 hs).length (idxFrom 0 hs) (Nat.le_refl _) 0
     (idxFrom_contig hs 0)).1,
   fun hs => (ibuild_inv (idxFrom 0 hs).length (idxFrom 0 hs) (Nat.le_refl _) 0
     (idxFrom_contig hs 0)).2⟩

/-- Witness for C1: the parent-child membership hypothesis discharged on the
two-heading document whose second heading is one level deeper. -/
theorem c1_build_tree_correct_witness :
    (Heading.mk 1 "a".toList).level < (Heading.mk 2 "b".toList).level := by
  have hbt : build_tree [Heading.mk 1 "a".toList, Heading.mk 2 "b".toList] =
      [HeadingNode.mk (Heading.mk 1 "a".toList)
        [HeadingNode.mk (Heading.mk 2 "b".toList) []]] := by
    simp [build_tree_cons, build_tree_nil]
  have hmem : ((Heading.mk 1 "a".toList), (Heading.mk 2 "b".toList)) ∈
      childPairsF (build_tree [Heading.mk 1 "a".toList, Heading.mk 2 "b".toList]) := by
    rw [hbt]
    show _ ∈ ([HeadingNode.mk (Heading.mk 2 "b".toList) []].map _ ++ _) ++ _
    simp [HeadingNode.heading]
  exact c1_build_tree_correct.2.1 [Heading.mk 1 "a".toList, Heading.mk 2 "b".toList] _ hmem

end Treemd
